import Mathlib

set_option linter.unusedVariables false
set_option linter.unusedSectionVars false

/-!
Shallow embedding of the mutation-testing engine in mutpy/controller.py:
the MutationScore tally, the four higher-order-mutation (HOM) grouping
strategies with their shared conflict filter, and the controller's
per-mutant orchestration (timeout deadline, score update, mutant-ordinal
selection, post-loop test-module repair).

Machine reals (Python floats for durations and the score percentage) are
modelled as rationals; Python lists as Lean lists; an AST node as an
abstract type with decidable equality together with a children map
giving, for each node, the list of its descendant nodes (mutpy stores
node.children as the transitive descendants); a mutation operator as an
abstract identifier with decidable equality.
-/

namespace MutPy

/-! ### MutationScore (controller.py, class MutationScore) -/

/-- State of controller.py's MutationScore: four outcome counters plus the
two informational coverage counters. -/
structure MutationScore where
  killed_mutants : Nat
  timeout_mutants : Nat
  incompetent_mutants : Nat
  survived_mutants : Nat
  covered_nodes : Nat
  all_nodes : Nat
deriving DecidableEq, Repr

/-- MutationScore.__init__: every counter starts at 0. -/
def MutationScore.init : MutationScore :=
  { killed_mutants := 0, timeout_mutants := 0, incompetent_mutants := 0
    survived_mutants := 0, covered_nodes := 0, all_nodes := 0 }

/-- The all_mutants property: sum of the four outcome counters. -/
def MutationScore.all_mutants (s : MutationScore) : Nat :=
  s.killed_mutants + s.timeout_mutants + s.incompetent_mutants + s.survived_mutants

/-- MutationScore.count: percentage (killed+timeout)/bottom*100 with
bottom = all_mutants - incompetent_mutants, and 0 when bottom is falsy. -/
def MutationScore.count (s : MutationScore) : ℚ :=
  let bottom : ℚ := (s.all_mutants : ℚ) - (s.incompetent_mutants : ℚ)
  if bottom ≠ 0 then ((s.killed_mutants : ℚ) + (s.timeout_mutants : ℚ)) / bottom * 100 else 0

/-- MutationScore.inc_killed. -/
def MutationScore.inc_killed (s : MutationScore) : MutationScore :=
  { s with killed_mutants := s.killed_mutants + 1 }

/-- MutationScore.inc_timeout. -/
def MutationScore.inc_timeout (s : MutationScore) : MutationScore :=
  { s with timeout_mutants := s.timeout_mutants + 1 }

/-- MutationScore.inc_incompetent. -/
def MutationScore.inc_incompetent (s : MutationScore) : MutationScore :=
  { s with incompetent_mutants := s.incompetent_mutants + 1 }

/-- MutationScore.inc_survived. -/
def MutationScore.inc_survived (s : MutationScore) : MutationScore :=
  { s with survived_mutants := s.survived_mutants + 1 }

/-- MutationScore.update_coverage: additive on the coverage counters. -/
def MutationScore.update_coverage (s : MutationScore) (covered_nodes all_nodes : Nat) :
    MutationScore :=
  { s with covered_nodes := s.covered_nodes + covered_nodes
           all_nodes := s.all_nodes + all_nodes }

/-- States reachable from a fresh MutationScore by the public operations. -/
inductive MutationScore.Reachable : MutationScore → Prop
  | init : Reachable MutationScore.init
  | killed {s} : Reachable s → Reachable s.inc_killed
  | timeout {s} : Reachable s → Reachable s.inc_timeout
  | incompetent {s} : Reachable s → Reachable s.inc_incompetent
  | survived {s} : Reachable s → Reachable s.inc_survived
  | coverage {s} (c a : Nat) : Reachable s → Reachable (s.update_coverage c a)

/-! ### Mutations and the shared conflict filter (HOMStrategy.remove_bad_mutations) -/

/-- A mutation record: the AST node it targets and its operator. Node and
operator types are abstract with decidable equality (Python compares them
with ==). -/
structure Mutation (ν ω : Type) where
  node : ν
  op : ω
deriving DecidableEq, Repr

section Strategies

variable {ν ω : Type} [DecidableEq ν] [DecidableEq ω]

/-- The condition of HOMStrategy.remove_bad_mutations under which an
available candidate is removed: same node as an applied mutation, the
applied node is among the candidate node's descendants, the candidate node
is among the applied node's descendants, or (when same operators are
disallowed) the operators coincide. The children map gives the descendant
list of each node. -/
def badMutation (children : ν → List ν) (allow_same_operators : Bool)
    (mutation_to_apply available_mutation : Mutation ν ω) : Bool :=
  decide (mutation_to_apply.node = available_mutation.node) ||
  decide (mutation_to_apply.node ∈ children available_mutation.node) ||
  decide (available_mutation.node ∈ children mutation_to_apply.node) ||
  (!allow_same_operators && decide (mutation_to_apply.op = available_mutation.op))

/-- The inner Python loop of remove_bad_mutations: iterate over a snapshot
of the available list, and remove (first occurrence, list.remove) every
snapshot element satisfying the predicate from the current list. -/
def removeLoop (p : Mutation ν ω → Bool) :
    List (Mutation ν ω) → List (Mutation ν ω) → List (Mutation ν ω)
  | [], avail => avail
  | x :: xs, avail => removeLoop p xs (if p x then avail.erase x else avail)

/-- HOMStrategy.remove_bad_mutations: for each mutation already chosen for
the group, sweep the available candidates (iterating over a snapshot, as
the Python for-loop iterates over available_mutations[:]) and remove every
candidate that conflicts with it. -/
def remove_bad_mutations (children : ν → List ν) (mutations_to_apply : List (Mutation ν ω))
    (available_mutations : List (Mutation ν ω)) (allow_same_operators : Bool) :
    List (Mutation ν ω) :=
  mutations_to_apply.foldl
    (fun avail a => removeLoop (badMutation children allow_same_operators a) avail avail)
    available_mutations

theorem removeLoop_length_le (p : Mutation ν ω → Bool) (s l : List (Mutation ν ω)) :
    (removeLoop p s l).length ≤ l.length := by
  induction s generalizing l with
  | nil => simp [removeLoop]
  | cons x xs ih =>
    simp only [removeLoop]
    refine (ih _).trans ?_
    split
    · exact List.length_erase_le x l
    · exact le_refl _

theorem remove_bad_mutations_length_le (children : ν → List ν)
    (to_apply avail : List (Mutation ν ω)) (allow : Bool) :
    (remove_bad_mutations children to_apply avail allow).length ≤ avail.length := by
  induction to_apply generalizing avail with
  | nil => simp [remove_bad_mutations]
  | cons a rest ih =>
    simpa [remove_bad_mutations, List.foldl_cons] using
      (ih _).trans (removeLoop_length_le _ _ _)

theorem erase_filter_of_pos {p : Mutation ν ω → Bool} {x : Mutation ν ω}
    (hx : p x = true) (l : List (Mutation ν ω)) :
    (l.erase x).filter (fun y => !p y) = l.filter (fun y => !p y) := by
  induction l with
  | nil => rfl
  | cons y ys ih =>
    by_cases hyx : y = x
    · subst hyx
      rw [List.erase_cons_head]
      simp [List.filter_cons, hx]
    · rw [List.erase_cons_tail (by simpa using hyx)]
      simp only [List.filter_cons]
      split
      · rw [ih]
      · exact ih

/-- If the snapshot contains at least as many occurrences of each bad value
as the current list does, the sweep removes exactly the bad elements. -/
theorem removeLoop_eq_filter_of_count (p : Mutation ν ω → Bool) (s l : List (Mutation ν ω))
    (h : ∀ v, p v = true → l.count v ≤ s.count v) :
    removeLoop p s l = l.filter (fun y => !p y) := by
  induction s generalizing l with
  | nil =>
    have hall : ∀ y ∈ l, (!p y) = true := by
      intro y hy
      by_contra hne
      have hp : p y = true := by
        cases hpy : p y with
        | false => exact absurd (by simp [hpy]) hne
        | true => rfl
      have := h y hp
      simp only [List.count_nil, Nat.le_zero] at this
      exact absurd ((List.count_pos_iff).2 hy) (by omega)
    simp [removeLoop, List.filter_eq_self.2 hall]
  | cons x xs ih =>
    simp only [removeLoop]
    cases hx : p x with
    | true =>
      have hif : (if true = true then l.erase x else l) = l.erase x := if_pos rfl
      rw [hif, ih (l.erase x) ?_, erase_filter_of_pos hx]
      intro v hv
      rcases eq_or_ne v x with rfl | hne
      · have := h v hv
        rw [List.count_erase_self]
        simp only [List.count_cons_self] at this
        omega
      · rw [List.count_erase_of_ne hne]
        have := h v hv
        rwa [List.count_cons_of_ne hne] at this
    | false =>
      have hif : (if false = true then l.erase x else l) = l := if_neg (by simp)
      rw [hif]
      refine ih l ?_
      intro v hv
      have hvx : v ≠ x := fun hvx => by rw [hvx] at hv; exact absurd hv (by simp [hx])
      have := h v hv
      rwa [List.count_cons_of_ne hvx] at this

theorem removeLoop_self_eq_filter (p : Mutation ν ω → Bool) (l : List (Mutation ν ω)) :
    removeLoop p l l = l.filter (fun y => !p y) :=
  removeLoop_eq_filter_of_count p l l (fun _ _ => le_refl _)

/-- remove_bad_mutations keeps exactly the candidates (in order, with
multiplicity) that conflict with none of the chosen mutations. -/
theorem remove_bad_mutations_eq_filter (children : ν → List ν)
    (to_apply avail : List (Mutation ν ω)) (allow : Bool) :
    remove_bad_mutations children to_apply avail allow =
      avail.filter (fun m => to_apply.all (fun a => !badMutation children allow a m)) := by
  induction to_apply generalizing avail with
  | nil => simp [remove_bad_mutations]
  | cons a rest ih =>
    simp only [remove_bad_mutations, List.foldl_cons] at *
    rw [removeLoop_self_eq_filter, ih, List.filter_filter]
    apply List.filter_congr
    intro m _
    simp [List.all_cons, Bool.and_comm]

/-! ### Strategy inner loops

Each generate method runs an inner while-loop building one group:
while the group is shorter than the order and candidates remain, pop a
candidate, append it to the group, remove it from the outer working list
(list.remove, i.e. first occurrence), and filter the remaining candidates
with remove_bad_mutations. The IndexError branch of the Python try/except
is dead code: the loop guard keeps the candidate list non-empty, so pop(0)
and pop(-1) always succeed. -/

/-- Inner loop of EachChoiceHOMStrategy.generate (and, verbatim in the
source, of RandomHOMStrategy.generate): candidates are popped from the
front. Returns the finished group and the shrunken outer working list. -/
def hom_pop_front_loop (children : ν → List ν) (order : Nat)
    (mutations_to_apply available_mutations mutations : List (Mutation ν ω)) :
    List (Mutation ν ω) × List (Mutation ν ω) :=
  if mutations_to_apply.length < order then
    match available_mutations with
    | [] => (mutations_to_apply, mutations)
    | m :: rest =>
      hom_pop_front_loop children order (mutations_to_apply ++ [m])
        (remove_bad_mutations children (mutations_to_apply ++ [m]) rest true)
        (mutations.erase m)
  else (mutations_to_apply, mutations)
termination_by available_mutations.length
decreasing_by
  exact Nat.lt_succ_of_le (remove_bad_mutations_length_le _ _ _ _)

/-- Inner loop of FirstToLastHOMStrategy.generate: the pop position
alternates between index 0 and index -1, starting at 0; front records
whether the next pop is from the front. -/
def ftl_loop (children : ν → List ν) (order : Nat) (front : Bool)
    (mutations_to_apply available_mutations mutations : List (Mutation ν ω)) :
    List (Mutation ν ω) × List (Mutation ν ω) :=
  if mutations_to_apply.length < order then
    match available_mutations with
    | [] => (mutations_to_apply, mutations)
    | m0 :: rest0 =>
      let m := if front then m0 else (m0 :: rest0).getLast (List.cons_ne_nil m0 rest0)
      let rest := if front then rest0 else (m0 :: rest0).dropLast
      ftl_loop children order (!front) (mutations_to_apply ++ [m])
        (remove_bad_mutations children (mutations_to_apply ++ [m]) rest true)
        (mutations.erase m)
  else (mutations_to_apply, mutations)
termination_by available_mutations.length
decreasing_by
  refine Nat.lt_succ_of_le ((remove_bad_mutations_length_le _ _ _ _).trans ?_)
  split
  · exact le_refl _
  · simp

/-- Inner loop of BetweenOperatorsHOMStrategy.generate: pops from the
front of the usage-sorted candidate list; a first-time pick is removed
from the not-yet-used list, the pick's usage counter is incremented, and
candidates are filtered with same operators disallowed. -/
def bo_loop (children : ν → List ν) (order : Nat)
    (mutations_to_apply available_mutations : List (Mutation ν ω))
    (usage : Mutation ν ω → Nat) (not_used : List (Mutation ν ω)) :
    List (Mutation ν ω) × (Mutation ν ω → Nat) × List (Mutation ν ω) :=
  if mutations_to_apply.length < order then
    match available_mutations with
    | [] => (mutations_to_apply, usage, not_used)
    | m :: rest =>
      bo_loop children order (mutations_to_apply ++ [m])
        (remove_bad_mutations children (mutations_to_apply ++ [m]) rest false)
        (fun x => if x = m then usage x + 1 else usage x)
        (if usage m = 0 then not_used.erase m else not_used)
  else (mutations_to_apply, usage, not_used)
termination_by available_mutations.length
decreasing_by
  exact Nat.lt_succ_of_le (remove_bad_mutations_length_le _ _ _ _)

/-! ### Strategy outer loops

Each generate method is a Python generator looping while the working list
(respectively the not-yet-used list) is non-empty and yielding one group
per iteration. The Lean embedding returns the list of yielded groups plus
a Bool flag: the flag is true exactly when an outer iteration failed to
shrink the working list, in which case the Python generator would keep
yielding the same group forever (possible only in degenerate
configurations, e.g. order = 0); the theorems below prove the flag false,
which is the termination of the source loop. -/

/-- Outer loop of EachChoiceHOMStrategy.generate (and of
RandomHOMStrategy.generate, whose loop body is verbatim identical in the
source): per iteration the candidate pool is a copy of the working list
and the inner loop pops from the front. -/
def each_choice_generate_aux (children : ν → List ν) (order : Nat)
    (mutations : List (Mutation ν ω)) : List (List (Mutation ν ω)) × Bool :=
  match mutations with
  | [] => ([], false)
  | m :: ms =>
    let r := hom_pop_front_loop children order [] (m :: ms) (m :: ms)
    if h : r.2.length < (m :: ms).length then
      let rest := each_choice_generate_aux children order r.2
      (r.1 :: rest.1, rest.2)
    else ([r.1], true)
termination_by mutations.length
decreasing_by
  exact h

/-- EachChoiceHOMStrategy.generate. -/
def EachChoiceHOMStrategy.generate (children : ν → List ν) (order : Nat)
    (mutations : List (Mutation ν ω)) : List (List (Mutation ν ω)) × Bool :=
  each_choice_generate_aux children order mutations

/-- RandomHOMStrategy.generate: shuffle the working list once with the
injected shuffler, then loop exactly as EachChoice does. -/
def RandomHOMStrategy.generate (children : ν → List ν) (order : Nat)
    (shuffler : List (Mutation ν ω) → List (Mutation ν ω))
    (mutations : List (Mutation ν ω)) : List (List (Mutation ν ω)) × Bool :=
  each_choice_generate_aux children order (shuffler mutations)

/-- Outer loop of FirstToLastHOMStrategy.generate. -/
def ftl_generate_aux (children : ν → List ν) (order : Nat)
    (mutations : List (Mutation ν ω)) : List (List (Mutation ν ω)) × Bool :=
  match mutations with
  | [] => ([], false)
  | m :: ms =>
    let r := ftl_loop children order true [] (m :: ms) (m :: ms)
    if h : r.2.length < (m :: ms).length then
      let rest := ftl_generate_aux children order r.2
      (r.1 :: rest.1, rest.2)
    else ([r.1], true)
termination_by mutations.length
decreasing_by
  exact h

/-- FirstToLastHOMStrategy.generate. -/
def FirstToLastHOMStrategy.generate (children : ν → List ν) (order : Nat)
    (mutations : List (Mutation ν ω)) : List (List (Mutation ν ω)) × Bool :=
  ftl_generate_aux children order mutations

/-- Outer loop of BetweenOperatorsHOMStrategy.generate: while some
mutation is not yet used, sort a copy of the full list by usage count
(Python's stable sort; Lean's mergeSort is likewise stable) and run the
inner loop. -/
def bo_generate_aux (children : ν → List ν) (order : Nat)
    (mutations : List (Mutation ν ω)) (usage : Mutation ν ω → Nat)
    (not_used : List (Mutation ν ω)) : List (List (Mutation ν ω)) × Bool :=
  match not_used with
  | [] => ([], false)
  | m0 :: nrest =>
    let avail := mutations.mergeSort (fun x y => decide (usage x ≤ usage y))
    let r := bo_loop children order [] avail usage (m0 :: nrest)
    if h : r.2.2.length < (m0 :: nrest).length then
      let rest := bo_generate_aux children order mutations r.2.1 r.2.2
      (r.1 :: rest.1, rest.2)
    else ([r.1], true)
termination_by not_used.length
decreasing_by
  exact h

/-- BetweenOperatorsHOMStrategy.generate: usage counters start at zero and
the not-yet-used list starts as a copy of the input. -/
def BetweenOperatorsHOMStrategy.generate (children : ν → List ν) (order : Nat)
    (mutations : List (Mutation ν ω)) : List (List (Mutation ν ω)) × Bool :=
  bo_generate_aux children order mutations (fun _ => 0) mutations

/-! ### Invariants of the inner loops -/

theorem le_erase_of_cons_le {α : Type} [DecidableEq α] {a : α} {s t : Multiset α}
    (h : a ::ₘ s ≤ t) : s ≤ t.erase a := by
  rw [Multiset.le_iff_count] at h ⊢
  intro x
  have hx := h x
  rcases eq_or_ne x a with rfl | hne
  · rw [Multiset.count_erase_self]
    rw [Multiset.count_cons_self] at hx
    omega
  · rw [Multiset.count_erase_of_ne hne]
    rwa [Multiset.count_cons_of_ne hne] at hx

theorem remove_bad_mutations_subperm (children : ν → List ν)
    (to_apply avail : List (Mutation ν ω)) (allow : Bool) :
    (↑(remove_bad_mutations children to_apply avail allow) : Multiset (Mutation ν ω)) ≤ ↑avail := by
  rw [remove_bad_mutations_eq_filter, Multiset.coe_le]
  exact (List.filter_sublist avail).subperm

/-- The popped mutations are transferred from the working list into the
group: group plus remaining working list is (as a multiset) the original
group plus the original working list, provided the candidate pool is a
sub-multiset of the working list. -/
theorem hom_pop_front_loop_multiset (children : ν → List ν) (o : Nat) :
    ∀ a av ms : List (Mutation ν ω), (↑av : Multiset (Mutation ν ω)) ≤ ↑ms →
      (↑(hom_pop_front_loop children o a av ms).1 : Multiset (Mutation ν ω)) +
        ↑(hom_pop_front_loop children o a av ms).2 = ↑a + ↑ms := by
  intro a av ms
  induction a, av, ms using @hom_pop_front_loop.induct ν ω inferInstance inferInstance children o with
  | case1 a ms hlt =>
    intro _
    simp [hom_pop_front_loop, hlt]
  | case2 a ms hlt m rest ih =>
    intro hle
    have hmem : m ∈ ms := by
      have : m ∈ (↑ms : Multiset (Mutation ν ω)) :=
        Multiset.mem_of_le hle (by simp)
      simpa using this
    have hrest : (↑rest : Multiset (Mutation ν ω)) ≤ ↑(ms.erase m) := by
      rw [← Multiset.coe_erase]
      exact le_erase_of_cons_le (by simpa using hle)
    have hsub : (↑(remove_bad_mutations children (a ++ [m]) rest true) :
        Multiset (Mutation ν ω)) ≤ ↑(ms.erase m) :=
      (remove_bad_mutations_subperm children _ rest true).trans hrest
    have heq := ih hsub
    have hunfold : hom_pop_front_loop children o a (m :: rest) ms =
        hom_pop_front_loop children o (a ++ [m])
          (remove_bad_mutations children (a ++ [m]) rest true) (ms.erase m) := by
      rw [hom_pop_front_loop]
      simp [hlt]
    rw [hunfold, heq, ← Multiset.coe_erase]
    have : (↑(a ++ [m]) : Multiset (Mutation ν ω)) = ↑a + {m} := rfl
    rw [this, add_assoc, Multiset.singleton_add, Multiset.cons_erase (by simpa using hmem)]
  | case3 a av ms hge =>
    intro _
    rw [hom_pop_front_loop.eq_def]
    simp [hge]

/-- A group never grows beyond the configured order (given that the
partial group respects the bound on entry). -/
theorem hom_pop_front_loop_length (children : ν → List ν) (o : Nat) :
    ∀ a av ms : List (Mutation ν ω),
      (hom_pop_front_loop children o a av ms).1.length ≤ max a.length o := by
  intro a av ms
  induction a, av, ms using @hom_pop_front_loop.induct ν ω inferInstance inferInstance children o with
  | case1 a ms hlt =>
    simp [hom_pop_front_loop, hlt]
  | case2 a ms hlt m rest ih =>
    have hunfold : hom_pop_front_loop children o a (m :: rest) ms =
        hom_pop_front_loop children o (a ++ [m])
          (remove_bad_mutations children (a ++ [m]) rest true) (ms.erase m) := by
      rw [hom_pop_front_loop]
      simp [hlt]
    rw [hunfold]
    refine ih.trans ?_
    simp only [List.length_append, List.length_singleton]
    omega
  | case3 a av ms hge =>
    rw [hom_pop_front_loop.eq_def]
    simp [hge]

/-- The partial group only ever grows. -/
theorem hom_pop_front_loop_length_ge (children : ν → List ν) (o : Nat) :
    ∀ a av ms : List (Mutation ν ω),
      a.length ≤ (hom_pop_front_loop children o a av ms).1.length := by
  intro a av ms
  induction a, av, ms using @hom_pop_front_loop.induct ν ω inferInstance inferInstance children o with
  | case1 a ms hlt =>
    simp [hom_pop_front_loop, hlt]
  | case2 a ms hlt m rest ih =>
    have hunfold : hom_pop_front_loop children o a (m :: rest) ms =
        hom_pop_front_loop children o (a ++ [m])
          (remove_bad_mutations children (a ++ [m]) rest true) (ms.erase m) := by
      rw [hom_pop_front_loop]
      simp [hlt]
    rw [hunfold]
    refine le_trans ?_ ih
    simp
  | case3 a av ms hge =>
    rw [hom_pop_front_loop.eq_def]
    simp [hge]

/-- The working list only shrinks. -/
theorem hom_pop_front_loop_snd_length (children : ν → List ν) (o : Nat) :
    ∀ a av ms : List (Mutation ν ω),
      (hom_pop_front_loop children o a av ms).2.length ≤ ms.length := by
  intro a av ms
  induction a, av, ms using @hom_pop_front_loop.induct ν ω inferInstance inferInstance children o with
  | case1 a ms hlt =>
    simp [hom_pop_front_loop, hlt]
  | case2 a ms hlt m rest ih =>
    have hunfold : hom_pop_front_loop children o a (m :: rest) ms =
        hom_pop_front_loop children o (a ++ [m])
          (remove_bad_mutations children (a ++ [m]) rest true) (ms.erase m) := by
      rw [hom_pop_front_loop]
      simp [hlt]
    rw [hunfold]
    exact ih.trans (List.length_erase_le m ms)
  | case3 a av ms hge =>
    rw [hom_pop_front_loop.eq_def]
    simp [hge]

/-- Pairwise compatibility: whatever relation is implied by surviving the
conflict filter holds between any two mutations of the finished group,
provided it already holds inside the partial group and between the
partial group and every candidate. -/
theorem hom_pop_front_loop_pairwise (children : ν → List ν)
    (R : Mutation ν ω → Mutation ν ω → Prop)
    (hR : ∀ a m : Mutation ν ω, badMutation children true a m = false → R a m) (o : Nat) :
    ∀ a av ms : List (Mutation ν ω), a.Pairwise R → (∀ x ∈ av, ∀ y ∈ a, R y x) →
      (hom_pop_front_loop children o a av ms).1.Pairwise R := by
  intro a av ms
  induction a, av, ms using @hom_pop_front_loop.induct ν ω inferInstance inferInstance children o with
  | case1 a ms hlt =>
    intro ha _
    simpa [hom_pop_front_loop, hlt] using ha
  | case2 a ms hlt m rest ih =>
    intro ha hav
    have hunfold : hom_pop_front_loop children o a (m :: rest) ms =
        hom_pop_front_loop children o (a ++ [m])
          (remove_bad_mutations children (a ++ [m]) rest true) (ms.erase m) := by
      rw [hom_pop_front_loop]
      simp [hlt]
    rw [hunfold]
    refine ih ?_ ?_
    · rw [List.pairwise_append]
      refine ⟨ha, List.pairwise_singleton _ _, ?_⟩
      intro y hy b hb
      rw [List.mem_singleton] at hb
      subst hb
      exact hav b (by simp) y hy
    · intro x hx y hy
      rw [remove_bad_mutations_eq_filter, List.mem_filter] at hx
      have hall := hx.2
      rw [List.all_eq_true] at hall
      have := hall y hy
      rw [Bool.not_eq_eq_eq_not, Bool.not_true] at this
      exact hR y x this
  | case3 a av ms hge =>
    intro ha _
    rw [hom_pop_front_loop.eq_def]
    simpa [hge] using ha

/-- When the order is positive and candidates exist, at least one
mutation is popped into the group and removed from the working list;
consequently each outer iteration strictly shrinks the working list. -/
theorem hom_pop_front_loop_progress (children : ν → List ν) (o : Nat) (ho : 1 ≤ o)
    (m : Mutation ν ω) (rest ms : List (Mutation ν ω)) :
    1 ≤ (hom_pop_front_loop children o [] (m :: rest) ms).1.length ∧
      (hom_pop_front_loop children o [] (m :: rest) ms).2.length ≤ (ms.erase m).length := by
  have hunfold : hom_pop_front_loop children o [] (m :: rest) ms =
      hom_pop_front_loop children o [m]
        (remove_bad_mutations children [m] rest true) (ms.erase m) := by
    rw [hom_pop_front_loop]
    simp [show (0 : Nat) < o from ho]
  rw [hunfold]
  constructor
  · simpa using hom_pop_front_loop_length_ge children o [m] _ _
  · exact hom_pop_front_loop_snd_length children o _ _ _

/-! ### The EachChoice / Random outer loop -/

/-- Specification of the EachChoice (and, after shuffling, Random) outer
loop for a positive order: the source generator terminates (flag false),
the yielded groups partition the input as a multiset, and every group is
non-empty of size at most the order. -/
theorem each_choice_generate_aux_spec (children : ν → List ν) (o : Nat) (ho : 1 ≤ o) :
    ∀ ms : List (Mutation ν ω),
      (each_choice_generate_aux children o ms).2 = false ∧
      (↑(each_choice_generate_aux children o ms).1.flatten : Multiset (Mutation ν ω)) = ↑ms ∧
      ∀ g ∈ (each_choice_generate_aux children o ms).1, g ≠ [] ∧ g.length ≤ o := by
  have main : ∀ n, ∀ ms : List (Mutation ν ω), ms.length ≤ n →
      (each_choice_generate_aux children o ms).2 = false ∧
      (↑(each_choice_generate_aux children o ms).1.flatten : Multiset (Mutation ν ω)) = ↑ms ∧
      ∀ g ∈ (each_choice_generate_aux children o ms).1, g ≠ [] ∧ g.length ≤ o := by
    intro n
    induction n with
    | zero =>
      intro ms hms
      have : ms = [] := List.length_eq_zero.1 (Nat.le_zero.1 hms)
      subst this
      simp [each_choice_generate_aux]
    | succ n ihn =>
      intro ms hms
      match ms with
      | [] => simp [each_choice_generate_aux]
      | m :: tail =>
        have hprog := hom_pop_front_loop_progress children o ho m tail (m :: tail)
        have hlt : (hom_pop_front_loop children o [] (m :: tail) (m :: tail)).2.length <
            (m :: tail).length := by
          have := hprog.2
          rw [List.erase_cons_head] at this
          exact lt_of_le_of_lt this (by simp)
        have hunfold : each_choice_generate_aux children o (m :: tail) =
            ((hom_pop_front_loop children o [] (m :: tail) (m :: tail)).1 ::
                (each_choice_generate_aux children o
                  (hom_pop_front_loop children o [] (m :: tail) (m :: tail)).2).1,
              (each_choice_generate_aux children o
                (hom_pop_front_loop children o [] (m :: tail) (m :: tail)).2).2) := by
          rw [each_choice_generate_aux]
          simp only [dif_pos hlt]
        have hlen : (hom_pop_front_loop children o [] (m :: tail) (m :: tail)).2.length ≤ n := by
          simp only [List.length_cons] at hlt hms
          omega
        obtain ⟨ihflag, ihjoin, ihgroups⟩ := ihn _ hlen
        have hmul := hom_pop_front_loop_multiset children o [] (m :: tail) (m :: tail) (le_refl _)
        refine ⟨?_, ?_, ?_⟩
        · rw [hunfold]
          exact ihflag
        · rw [hunfold]
          simp only [List.flatten_cons, ← Multiset.coe_add]
          rw [ihjoin, hmul]
          simp
        · rw [hunfold]
          intro g hg
          rw [List.mem_cons] at hg
          rcases hg with rfl | hg
          · refine ⟨?_, ?_⟩
            · have h1 := hprog.1
              intro hnil
              rw [hnil] at h1
              simp at h1
            · simpa using hom_pop_front_loop_length children o [] (m :: tail) (m :: tail)
          · exact ihgroups g hg
  exact fun ms => main ms.length ms (le_refl _)

/-- Every group yielded by the EachChoice / Random outer loop is pairwise
compatible in the sense of the conflict filter (no order hypothesis:
degenerate configurations included). -/
theorem each_choice_generate_aux_pairwise (children : ν → List ν)
    (R : Mutation ν ω → Mutation ν ω → Prop)
    (hR : ∀ a m : Mutation ν ω, badMutation children true a m = false → R a m) (o : Nat) :
    ∀ ms : List (Mutation ν ω), ∀ g ∈ (each_choice_generate_aux children o ms).1,
      g.Pairwise R := by
  have main : ∀ n, ∀ ms : List (Mutation ν ω), ms.length ≤ n →
      ∀ g ∈ (each_choice_generate_aux children o ms).1, g.Pairwise R := by
    intro n
    induction n with
    | zero =>
      intro ms hms
      have : ms = [] := List.length_eq_zero.1 (Nat.le_zero.1 hms)
      subst this
      simp [each_choice_generate_aux]
    | succ n ihn =>
      intro ms hms
      match ms with
      | [] => simp [each_choice_generate_aux]
      | m :: tail =>
        have hpair := hom_pop_front_loop_pairwise children R hR o [] (m :: tail) (m :: tail)
          (List.Pairwise.nil) (by simp)
        by_cases hlt : (hom_pop_front_loop children o [] (m :: tail) (m :: tail)).2.length <
            (m :: tail).length
        · have hunfold : each_choice_generate_aux children o (m :: tail) =
              ((hom_pop_front_loop children o [] (m :: tail) (m :: tail)).1 ::
                  (each_choice_generate_aux children o
                    (hom_pop_front_loop children o [] (m :: tail) (m :: tail)).2).1,
                (each_choice_generate_aux children o
                  (hom_pop_front_loop children o [] (m :: tail) (m :: tail)).2).2) := by
            rw [each_choice_generate_aux]
            simp only [dif_pos hlt]
          rw [hunfold]
          intro g hg
          rw [List.mem_cons] at hg
          rcases hg with rfl | hg
          · exact hpair
          · refine ihn _ ?_ g hg
            simp only [List.length_cons] at hlt hms
            omega
        · have hunfold : each_choice_generate_aux children o (m :: tail) =
              ([(hom_pop_front_loop children o [] (m :: tail) (m :: tail)).1], true) := by
            rw [each_choice_generate_aux]
            simp only [dif_neg hlt]
          rw [hunfold]
          intro g hg
          rw [List.mem_singleton] at hg
          subst hg
          exact hpair
  exact fun ms => main ms.length ms (le_refl _)

/-! ### The FirstToLast inner loop invariants -/

/-- The popped mutations are transferred from the working list into the
group, FirstToLast version. -/
theorem ftl_loop_multiset (children : ν → List ν) (o : Nat) :
    ∀ (front : Bool) (a av ms : List (Mutation ν ω)),
      (↑av : Multiset (Mutation ν ω)) ≤ ↑ms →
      (↑(ftl_loop children o front a av ms).1 : Multiset (Mutation ν ω)) +
        ↑(ftl_loop children o front a av ms).2 = ↑a + ↑ms := by
  intro front a av ms
  induction front, a, av, ms using @ftl_loop.induct ν ω inferInstance inferInstance children o with
  | case1 front a ms hlt =>
    intro _
    simp [ftl_loop, hlt]
  | case2 front a ms hlt m0 rest0 m rest ih =>
    intro hle
    have hm : m = if front then m0 else (m0 :: rest0).getLast (List.cons_ne_nil m0 rest0) := rfl
    have hr : rest = if front then rest0 else (m0 :: rest0).dropLast := rfl
    have hcons : (m ::ₘ (↑rest : Multiset (Mutation ν ω))) = ↑(m0 :: rest0) := by
      by_cases hf : front = true
      · have hm2 : m = m0 := by rw [hm, if_pos hf]
        have hr2 : rest = rest0 := by rw [hr, if_pos hf]
        rw [hm2, hr2, Multiset.cons_coe]
      · have hm2 : m = (m0 :: rest0).getLast (List.cons_ne_nil m0 rest0) := by
          rw [hm, if_neg hf]
        have hr2 : rest = (m0 :: rest0).dropLast := by rw [hr, if_neg hf]
        rw [hm2, hr2]
        have hsplit := List.dropLast_append_getLast (List.cons_ne_nil m0 rest0)
        calc ((m0 :: rest0).getLast (List.cons_ne_nil m0 rest0) ::ₘ
                (↑((m0 :: rest0).dropLast) : Multiset (Mutation ν ω)))
            = {(m0 :: rest0).getLast (List.cons_ne_nil m0 rest0)} +
                (↑((m0 :: rest0).dropLast) : Multiset (Mutation ν ω)) :=
              (Multiset.singleton_add _ _).symm
          _ = (↑((m0 :: rest0).dropLast) : Multiset (Mutation ν ω)) +
                {(m0 :: rest0).getLast (List.cons_ne_nil m0 rest0)} := add_comm _ _
          _ = ↑((m0 :: rest0).dropLast ++ [(m0 :: rest0).getLast (List.cons_ne_nil m0 rest0)]) :=
              rfl
          _ = ↑(m0 :: rest0) := by rw [hsplit]
    have hmle : (m ::ₘ (↑rest : Multiset (Mutation ν ω))) ≤ ↑ms := by
      rw [hcons]
      exact hle
    have hmem : m ∈ ms := by
      have : m ∈ (↑ms : Multiset (Mutation ν ω)) := Multiset.mem_of_le hmle (by simp)
      simpa using this
    have hrest : (↑rest : Multiset (Mutation ν ω)) ≤ ↑(ms.erase m) := by
      rw [← Multiset.coe_erase]
      exact le_erase_of_cons_le hmle
    have hsub : (↑(remove_bad_mutations children (a ++ [m]) rest true) :
        Multiset (Mutation ν ω)) ≤ ↑(ms.erase m) :=
      (remove_bad_mutations_subperm children _ rest true).trans hrest
    have heq := ih hsub
    have hunfold : ftl_loop children o front a (m0 :: rest0) ms =
        ftl_loop children o (!front) (a ++ [m])
          (remove_bad_mutations children (a ++ [m]) rest true) (ms.erase m) := by
      rw [ftl_loop]
      simp only [if_pos hlt]
      rfl
    rw [hunfold, heq, ← Multiset.coe_erase]
    have hx : (↑(a ++ [m]) : Multiset (Mutation ν ω)) = ↑a + {m} := rfl
    rw [hx, add_assoc, Multiset.singleton_add, Multiset.cons_erase (by simpa using hmem)]
  | case3 front a av ms hge =>
    intro _
    rw [ftl_loop.eq_def]
    simp [hge]

theorem ftl_loop_length (children : ν → List ν) (o : Nat) :
    ∀ (front : Bool) (a av ms : List (Mutation ν ω)),
      (ftl_loop children o front a av ms).1.length ≤ max a.length o := by
  intro front a av ms
  induction front, a, av, ms using @ftl_loop.induct ν ω inferInstance inferInstance children o with
  | case1 front a ms hlt =>
    simp [ftl_loop, hlt]
  | case2 front a ms hlt m0 rest0 m rest ih =>
    have hunfold : ftl_loop children o front a (m0 :: rest0) ms =
        ftl_loop children o (!front) (a ++ [m])
          (remove_bad_mutations children (a ++ [m]) rest true) (ms.erase m) := by
      rw [ftl_loop]
      simp only [if_pos hlt]
      rfl
    rw [hunfold]
    refine ih.trans ?_
    simp only [List.length_append, List.length_singleton]
    omega
  | case3 front a av ms hge =>
    rw [ftl_loop.eq_def]
    simp [hge]

theorem ftl_loop_length_ge (children : ν → List ν) (o : Nat) :
    ∀ (front : Bool) (a av ms : List (Mutation ν ω)),
      a.length ≤ (ftl_loop children o front a av ms).1.length := by
  intro front a av ms
  induction front, a, av, ms using @ftl_loop.induct ν ω inferInstance inferInstance children o with
  | case1 front a ms hlt =>
    simp [ftl_loop, hlt]
  | case2 front a ms hlt m0 rest0 m rest ih =>
    have hunfold : ftl_loop children o front a (m0 :: rest0) ms =
        ftl_loop children o (!front) (a ++ [m])
          (remove_bad_mutations children (a ++ [m]) rest true) (ms.erase m) := by
      rw [ftl_loop]
      simp only [if_pos hlt]
      rfl
    rw [hunfold]
    refine le_trans ?_ ih
    simp
  | case3 front a av ms hge =>
    rw [ftl_loop.eq_def]
    simp [hge]

theorem ftl_loop_snd_length (children : ν → List ν) (o : Nat) :
    ∀ (front : Bool) (a av ms : List (Mutation ν ω)),
      (ftl_loop children o front a av ms).2.length ≤ ms.length := by
  intro front a av ms
  induction front, a, av, ms using @ftl_loop.induct ν ω inferInstance inferInstance children o with
  | case1 front a ms hlt =>
    simp [ftl_loop, hlt]
  | case2 front a ms hlt m0 rest0 m rest ih =>
    have hunfold : ftl_loop children o front a (m0 :: rest0) ms =
        ftl_loop children o (!front) (a ++ [m])
          (remove_bad_mutations children (a ++ [m]) rest true) (ms.erase m) := by
      rw [ftl_loop]
      simp only [if_pos hlt]
      rfl
    rw [hunfold]
    exact ih.trans (List.length_erase_le m ms)
  | case3 front a av ms hge =>
    rw [ftl_loop.eq_def]
    simp [hge]

theorem ftl_loop_pairwise (children : ν → List ν)
    (R : Mutation ν ω → Mutation ν ω → Prop)
    (hR : ∀ a m : Mutation ν ω, badMutation children true a m = false → R a m) (o : Nat) :
    ∀ (front : Bool) (a av ms : List (Mutation ν ω)),
      a.Pairwise R → (∀ x ∈ av, ∀ y ∈ a, R y x) →
      (ftl_loop children o front a av ms).1.Pairwise R := by
  intro front a av ms
  induction front, a, av, ms using @ftl_loop.induct ν ω inferInstance inferInstance children o with
  | case1 front a ms hlt =>
    intro ha _
    simpa [ftl_loop, hlt] using ha
  | case2 front a ms hlt m0 rest0 m rest ih =>
    intro ha hav
    have hm : m = if front then m0 else (m0 :: rest0).getLast (List.cons_ne_nil m0 rest0) := rfl
    have hmav : m ∈ m0 :: rest0 := by
      rw [hm]
      by_cases hf : front = true
      · rw [if_pos hf]
        simp
      · rw [if_neg hf]
        exact List.getLast_mem _
    have hunfold : ftl_loop children o front a (m0 :: rest0) ms =
        ftl_loop children o (!front) (a ++ [m])
          (remove_bad_mutations children (a ++ [m]) rest true) (ms.erase m) := by
      rw [ftl_loop]
      simp only [if_pos hlt]
      rfl
    rw [hunfold]
    refine ih ?_ ?_
    · rw [List.pairwise_append]
      refine ⟨ha, List.pairwise_singleton _ _, ?_⟩
      intro y hy b hb
      rw [List.mem_singleton] at hb
      subst hb
      exact hav m hmav y hy
    · intro x hx y hy
      rw [remove_bad_mutations_eq_filter, List.mem_filter] at hx
      have hall := hx.2
      rw [List.all_eq_true] at hall
      have hbad := hall y hy
      rw [Bool.not_eq_eq_eq_not, Bool.not_true] at hbad
      exact hR y x hbad
  | case3 front a av ms hge =>
    intro ha _
    rw [ftl_loop.eq_def]
    simpa [hge] using ha

/-- The first pop of a FirstToLast group is from the front (index 0), so
with a positive order the head of the working list is always consumed. -/
theorem ftl_loop_progress (children : ν → List ν) (o : Nat) (ho : 1 ≤ o)
    (m : Mutation ν ω) (rest ms : List (Mutation ν ω)) :
    1 ≤ (ftl_loop children o true [] (m :: rest) ms).1.length ∧
      (ftl_loop children o true [] (m :: rest) ms).2.length ≤ (ms.erase m).length := by
  have hunfold : ftl_loop children o true [] (m :: rest) ms =
      ftl_loop children o false [m]
        (remove_bad_mutations children [m] rest true) (ms.erase m) := by
    rw [ftl_loop]
    simp only [if_pos (show ([] : List (Mutation ν ω)).length < o from by simpa using ho)]
    rfl
  rw [hunfold]
  constructor
  · simpa using ftl_loop_length_ge children o false [m] _ _
  · exact ftl_loop_snd_length children o false [m] _ _

/-- Specification of the FirstToLast outer loop for a positive order:
termination, multiset partition of the input, and non-empty groups of
size at most the order. -/
theorem ftl_generate_aux_spec (children : ν → List ν) (o : Nat) (ho : 1 ≤ o) :
    ∀ ms : List (Mutation ν ω),
      (ftl_generate_aux children o ms).2 = false ∧
      (↑(ftl_generate_aux children o ms).1.flatten : Multiset (Mutation ν ω)) = ↑ms ∧
      ∀ g ∈ (ftl_generate_aux children o ms).1, g ≠ [] ∧ g.length ≤ o := by
  have main : ∀ n, ∀ ms : List (Mutation ν ω), ms.length ≤ n →
      (ftl_generate_aux children o ms).2 = false ∧
      (↑(ftl_generate_aux children o ms).1.flatten : Multiset (Mutation ν ω)) = ↑ms ∧
      ∀ g ∈ (ftl_generate_aux children o ms).1, g ≠ [] ∧ g.length ≤ o := by
    intro n
    induction n with
    | zero =>
      intro ms hms
      have : ms = [] := List.length_eq_zero.1 (Nat.le_zero.1 hms)
      subst this
      simp [ftl_generate_aux]
    | succ n ihn =>
      intro ms hms
      match ms with
      | [] => simp [ftl_generate_aux]
      | m :: tail =>
        have hprog := ftl_loop_progress children o ho m tail (m :: tail)
        have hlt : (ftl_loop children o true [] (m :: tail) (m :: tail)).2.length <
            (m :: tail).length := by
          have := hprog.2
          rw [List.erase_cons_head] at this
          exact lt_of_le_of_lt this (by simp)
        have hunfold : ftl_generate_aux children o (m :: tail) =
            ((ftl_loop children o true [] (m :: tail) (m :: tail)).1 ::
                (ftl_generate_aux children o
                  (ftl_loop children o true [] (m :: tail) (m :: tail)).2).1,
              (ftl_generate_aux children o
                (ftl_loop children o true [] (m :: tail) (m :: tail)).2).2) := by
          rw [ftl_generate_aux]
          simp only [dif_pos hlt]
        have hlen : (ftl_loop children o true [] (m :: tail) (m :: tail)).2.length ≤ n := by
          simp only [List.length_cons] at hlt hms
          omega
        obtain ⟨ihflag, ihjoin, ihgroups⟩ := ihn _ hlen
        have hmul := ftl_loop_multiset children o true [] (m :: tail) (m :: tail) (le_refl _)
        refine ⟨?_, ?_, ?_⟩
        · rw [hunfold]
          exact ihflag
        · rw [hunfold]
          simp only [List.flatten_cons, ← Multiset.coe_add]
          rw [ihjoin, hmul]
          simp
        · rw [hunfold]
          intro g hg
          rw [List.mem_cons] at hg
          rcases hg with rfl | hg
          · refine ⟨?_, ?_⟩
            · have h1 := hprog.1
              intro hnil
              rw [hnil] at h1
              simp at h1
            · simpa using ftl_loop_length children o true [] (m :: tail) (m :: tail)
          · exact ihgroups g hg
  exact fun ms => main ms.length ms (le_refl _)

/-- Every group yielded by the FirstToLast outer loop is pairwise
compatible in the sense of the conflict filter. -/
theorem ftl_generate_aux_pairwise (children : ν → List ν)
    (R : Mutation ν ω → Mutation ν ω → Prop)
    (hR : ∀ a m : Mutation ν ω, badMutation children true a m = false → R a m) (o : Nat) :
    ∀ ms : List (Mutation ν ω), ∀ g ∈ (ftl_generate_aux children o ms).1,
      g.Pairwise R := by
  have main : ∀ n, ∀ ms : List (Mutation ν ω), ms.length ≤ n →
      ∀ g ∈ (ftl_generate_aux children o ms).1, g.Pairwise R := by
    intro n
    induction n with
    | zero =>
      intro ms hms
      have : ms = [] := List.length_eq_zero.1 (Nat.le_zero.1 hms)
      subst this
      simp [ftl_generate_aux]
    | succ n ihn =>
      intro ms hms
      match ms with
      | [] => simp [ftl_generate_aux]
      | m :: tail =>
        have hpair := ftl_loop_pairwise children R hR o true [] (m :: tail) (m :: tail)
          (List.Pairwise.nil) (by simp)
        by_cases hlt : (ftl_loop children o true [] (m :: tail) (m :: tail)).2.length <
            (m :: tail).length
        · have hunfold : ftl_generate_aux children o (m :: tail) =
              ((ftl_loop children o true [] (m :: tail) (m :: tail)).1 ::
                  (ftl_generate_aux children o
                    (ftl_loop children o true [] (m :: tail) (m :: tail)).2).1,
                (ftl_generate_aux children o
                  (ftl_loop children o true [] (m :: tail) (m :: tail)).2).2) := by
            rw [ftl_generate_aux]
            simp only [dif_pos hlt]
          rw [hunfold]
          intro g hg
          rw [List.mem_cons] at hg
          rcases hg with rfl | hg
          · exact hpair
          · refine ihn _ ?_ g hg
            simp only [List.length_cons] at hlt hms
            omega
        · have hunfold : ftl_generate_aux children o (m :: tail) =
              ([(ftl_loop children o true [] (m :: tail) (m :: tail)).1], true) := by
            rw [ftl_generate_aux]
            simp only [dif_neg hlt]
          rw [hunfold]
          intro g hg
          rw [List.mem_singleton] at hg
          subst hg
          exact hpair
  exact fun ms => main ms.length ms (le_refl _)

/-! ### The BetweenOperators inner loop invariants -/

theorem remove_bad_mutations_subset (children : ν → List ν)
    (to_apply avail : List (Mutation ν ω)) (allow : Bool) :
    ∀ x ∈ remove_bad_mutations children to_apply avail allow, x ∈ avail := by
  intro x hx
  rw [remove_bad_mutations_eq_filter, List.mem_filter] at hx
  exact hx.1

theorem bo_loop_length (children : ν → List ν) (o : Nat) :
    ∀ (a av : List (Mutation ν ω)) (usage : Mutation ν ω → Nat) (nu : List (Mutation ν ω)),
      (bo_loop children o a av usage nu).1.length ≤ max a.length o := by
  intro a av usage nu
  induction a, av, usage, nu using @bo_loop.induct ν ω inferInstance inferInstance children o with
  | case1 a usage nu hlt =>
    simp [bo_loop, hlt]
  | case2 a usage nu hlt m rest ih =>
    have hunfold : bo_loop children o a (m :: rest) usage nu =
        bo_loop children o (a ++ [m])
          (remove_bad_mutations children (a ++ [m]) rest false)
          (fun x => if x = m then usage x + 1 else usage x)
          (if usage m = 0 then nu.erase m else nu) := by
      rw [bo_loop]
      simp only [if_pos hlt]
    rw [hunfold]
    refine ih.trans ?_
    simp only [List.length_append, List.length_singleton]
    omega
  | case3 a av usage nu hge =>
    rw [bo_loop.eq_def]
    simp [hge]

theorem bo_loop_length_ge (children : ν → List ν) (o : Nat) :
    ∀ (a av : List (Mutation ν ω)) (usage : Mutation ν ω → Nat) (nu : List (Mutation ν ω)),
      a.length ≤ (bo_loop children o a av usage nu).1.length := by
  intro a av usage nu
  induction a, av, usage, nu using @bo_loop.induct ν ω inferInstance inferInstance children o with
  | case1 a usage nu hlt =>
    simp [bo_loop, hlt]
  | case2 a usage nu hlt m rest ih =>
    have hunfold : bo_loop children o a (m :: rest) usage nu =
        bo_loop children o (a ++ [m])
          (remove_bad_mutations children (a ++ [m]) rest false)
          (fun x => if x = m then usage x + 1 else usage x)
          (if usage m = 0 then nu.erase m else nu) := by
      rw [bo_loop]
      simp only [if_pos hlt]
    rw [hunfold]
    refine le_trans ?_ ih
    simp
  | case3 a av usage nu hge =>
    rw [bo_loop.eq_def]
    simp [hge]

/-- Elements of the final group come from the partial group or the
candidate pool. -/
theorem bo_loop_mem_fst (children : ν → List ν) (o : Nat) :
    ∀ (a av : List (Mutation ν ω)) (usage : Mutation ν ω → Nat) (nu : List (Mutation ν ω)),
      ∀ x ∈ (bo_loop children o a av usage nu).1, x ∈ a ∨ x ∈ av := by
  intro a av usage nu
  induction a, av, usage, nu using @bo_loop.induct ν ω inferInstance inferInstance children o with
  | case1 a usage nu hlt =>
    intro x hx
    rw [show bo_loop children o a [] usage nu = (a, usage, nu) from by
      rw [bo_loop]
      simp [hlt]] at hx
    exact Or.inl hx
  | case2 a usage nu hlt m rest ih =>
    have hunfold : bo_loop children o a (m :: rest) usage nu =
        bo_loop children o (a ++ [m])
          (remove_bad_mutations children (a ++ [m]) rest false)
          (fun x => if x = m then usage x + 1 else usage x)
          (if usage m = 0 then nu.erase m else nu) := by
      rw [bo_loop]
      simp only [if_pos hlt]
    intro x hx
    rw [hunfold] at hx
    rcases ih x hx with hxa | hxav
    · rw [List.mem_append, List.mem_singleton] at hxa
      rcases hxa with hxa | rfl
      · exact Or.inl hxa
      · exact Or.inr (by simp)
    · exact Or.inr (List.mem_cons_of_mem m
        (remove_bad_mutations_subset children _ _ _ x hxav))
  | case3 a av usage nu hge =>
    intro x hx
    rw [show bo_loop children o a av usage nu = (a, usage, nu) from by
      rw [bo_loop.eq_def]
      simp [hge]] at hx
    exact Or.inl hx

/-- The partial group is contained in the final group. -/
theorem bo_loop_mem_a (children : ν → List ν) (o : Nat) :
    ∀ (a av : List (Mutation ν ω)) (usage : Mutation ν ω → Nat) (nu : List (Mutation ν ω)),
      ∀ x ∈ a, x ∈ (bo_loop children o a av usage nu).1 := by
  intro a av usage nu
  induction a, av, usage, nu using @bo_loop.induct ν ω inferInstance inferInstance children o with
  | case1 a usage nu hlt =>
    intro x hx
    rw [show bo_loop children o a [] usage nu = (a, usage, nu) from by
      rw [bo_loop]
      simp [hlt]]
    exact hx
  | case2 a usage nu hlt m rest ih =>
    have hunfold : bo_loop children o a (m :: rest) usage nu =
        bo_loop children o (a ++ [m])
          (remove_bad_mutations children (a ++ [m]) rest false)
          (fun x => if x = m then usage x + 1 else usage x)
          (if usage m = 0 then nu.erase m else nu) := by
      rw [bo_loop]
      simp only [if_pos hlt]
    intro x hx
    rw [hunfold]
    exact ih x (by simp [hx])
  | case3 a av usage nu hge =>
    intro x hx
    rw [show bo_loop children o a av usage nu = (a, usage, nu) from by
      rw [bo_loop.eq_def]
      simp [hge]]
    exact hx

/-- The not-yet-used list only ever loses elements. -/
theorem bo_loop_nu_subset (children : ν → List ν) (o : Nat) :
    ∀ (a av : List (Mutation ν ω)) (usage : Mutation ν ω → Nat) (nu : List (Mutation ν ω)),
      ∀ x ∈ (bo_loop children o a av usage nu).2.2, x ∈ nu := by
  intro a av usage nu
  induction a, av, usage, nu using @bo_loop.induct ν ω inferInstance inferInstance children o with
  | case1 a usage nu hlt =>
    intro x hx
    rw [show bo_loop children o a [] usage nu = (a, usage, nu) from by
      rw [bo_loop]
      simp [hlt]] at hx
    exact hx
  | case2 a usage nu hlt m rest ih =>
    have hunfold : bo_loop children o a (m :: rest) usage nu =
        bo_loop children o (a ++ [m])
          (remove_bad_mutations children (a ++ [m]) rest false)
          (fun x => if x = m then usage x + 1 else usage x)
          (if usage m = 0 then nu.erase m else nu) := by
      rw [bo_loop]
      simp only [if_pos hlt]
    intro x hx
    rw [hunfold] at hx
    have := ih x hx
    split at this
    · exact List.mem_of_mem_erase this
    · exact this
  | case3 a av usage nu hge =>
    intro x hx
    rw [show bo_loop children o a av usage nu = (a, usage, nu) from by
      rw [bo_loop.eq_def]
      simp [hge]] at hx
    exact hx

theorem bo_loop_nu_length (children : ν → List ν) (o : Nat) :
    ∀ (a av : List (Mutation ν ω)) (usage : Mutation ν ω → Nat) (nu : List (Mutation ν ω)),
      (bo_loop children o a av usage nu).2.2.length ≤ nu.length := by
  intro a av usage nu
  induction a, av, usage, nu using @bo_loop.induct ν ω inferInstance inferInstance children o with
  | case1 a usage nu hlt =>
    simp [bo_loop, hlt]
  | case2 a usage nu hlt m rest ih =>
    have hunfold : bo_loop children o a (m :: rest) usage nu =
        bo_loop children o (a ++ [m])
          (remove_bad_mutations children (a ++ [m]) rest false)
          (fun x => if x = m then usage x + 1 else usage x)
          (if usage m = 0 then nu.erase m else nu) := by
      rw [bo_loop]
      simp only [if_pos hlt]
    rw [hunfold]
    refine ih.trans ?_
    split
    · exact List.length_erase_le m nu
    · exact le_refl _
  | case3 a av usage nu hge =>
    rw [bo_loop.eq_def]
    simp [hge]

/-- A mutation dropped from the not-yet-used list during the inner loop
was picked into the group. -/
theorem bo_loop_covered (children : ν → List ν) (o : Nat) :
    ∀ (a av : List (Mutation ν ω)) (usage : Mutation ν ω → Nat) (nu : List (Mutation ν ω)),
      ∀ x ∈ nu, x ∉ (bo_loop children o a av usage nu).2.2 →
        x ∈ (bo_loop children o a av usage nu).1 := by
  intro a av usage nu
  induction a, av, usage, nu using @bo_loop.induct ν ω inferInstance inferInstance children o with
  | case1 a usage nu hlt =>
    intro x hx hnot
    rw [show bo_loop children o a [] usage nu = (a, usage, nu) from by
      rw [bo_loop]
      simp [hlt]] at hnot
    exact absurd hx hnot
  | case2 a usage nu hlt m rest ih =>
    have hunfold : bo_loop children o a (m :: rest) usage nu =
        bo_loop children o (a ++ [m])
          (remove_bad_mutations children (a ++ [m]) rest false)
          (fun x => if x = m then usage x + 1 else usage x)
          (if usage m = 0 then nu.erase m else nu) := by
      rw [bo_loop]
      simp only [if_pos hlt]
    intro x hx hnot
    rw [hunfold] at hnot ⊢
    by_cases hxnu : x ∈ (if usage m = 0 then nu.erase m else nu)
    · exact ih x hxnu hnot
    · have hxm : x = m := by
        by_contra hne
        split at hxnu
        · exact hxnu (List.mem_erase_of_ne hne |>.2 hx)
        · exact hxnu hx
      subst hxm
      exact bo_loop_mem_a children o _ _ _ _ x (by simp)
  | case3 a av usage nu hge =>
    intro x hx hnot
    rw [show bo_loop children o a av usage nu = (a, usage, nu) from by
      rw [bo_loop.eq_def]
      simp [hge]] at hnot
    exact absurd hx hnot

/-- Preservation of the usage-list invariant: the not-yet-used list
contains exactly the mutations of interest whose usage count is zero and
stays duplicate-free. -/
theorem bo_loop_invariant (children : ν → List ν) (o : Nat) (P : Mutation ν ω → Prop) :
    ∀ (a av : List (Mutation ν ω)) (usage : Mutation ν ω → Nat) (nu : List (Mutation ν ω)),
      nu.Nodup → (∀ x, x ∈ nu ↔ P x ∧ usage x = 0) →
      (∀ x, x ∈ (bo_loop children o a av usage nu).2.2 ↔
        P x ∧ (bo_loop children o a av usage nu).2.1 x = 0) ∧
      (bo_loop children o a av usage nu).2.2.Nodup := by
  intro a av usage nu
  induction a, av, usage, nu using @bo_loop.induct ν ω inferInstance inferInstance children o with
  | case1 a usage nu hlt =>
    intro hnd hinv
    rw [show bo_loop children o a [] usage nu = (a, usage, nu) from by
      rw [bo_loop]
      simp [hlt]]
    exact ⟨hinv, hnd⟩
  | case2 a usage nu hlt m rest ih =>
    intro hnd hinv
    have hunfold : bo_loop children o a (m :: rest) usage nu =
        bo_loop children o (a ++ [m])
          (remove_bad_mutations children (a ++ [m]) rest false)
          (fun x => if x = m then usage x + 1 else usage x)
          (if usage m = 0 then nu.erase m else nu) := by
      rw [bo_loop]
      simp only [if_pos hlt]
    rw [hunfold]
    refine ih ?_ ?_
    · split
      · exact hnd.erase m
      · exact hnd
    · intro x
      by_cases hum : usage m = 0
      · rw [dif_pos hum]
        rcases eq_or_ne x m with rfl | hne
        · simp only [dif_pos rfl]
          constructor
          · intro hx
            exact absurd rfl ((hnd.mem_erase_iff).1 hx).1
          · intro hx
            exact absurd hx.2 (by simp)
        · simp only [dif_neg hne]
          rw [List.mem_erase_of_ne hne, hinv x]
      · rw [dif_neg hum]
        rcases eq_or_ne x m with rfl | hne
        · simp only [dif_pos rfl]
          rw [hinv x]
          constructor
          · intro hx
            exact absurd hx.2 hum
          · intro hx
            exact absurd hx.2 (by simp)
        · simp only [dif_neg hne]
          exact hinv x
  | case3 a av usage nu hge =>
    intro hnd hinv
    rw [show bo_loop children o a av usage nu = (a, usage, nu) from by
      rw [bo_loop.eq_def]
      simp [hge]]
    exact ⟨hinv, hnd⟩

theorem bo_loop_pairwise (children : ν → List ν)
    (R : Mutation ν ω → Mutation ν ω → Prop)
    (hR : ∀ a m : Mutation ν ω, badMutation children false a m = false → R a m) (o : Nat) :
    ∀ (a av : List (Mutation ν ω)) (usage : Mutation ν ω → Nat) (nu : List (Mutation ν ω)),
      a.Pairwise R → (∀ x ∈ av, ∀ y ∈ a, R y x) →
      (bo_loop children o a av usage nu).1.Pairwise R := by
  intro a av usage nu
  induction a, av, usage, nu using @bo_loop.induct ν ω inferInstance inferInstance children o with
  | case1 a usage nu hlt =>
    intro ha _
    rw [show bo_loop children o a [] usage nu = (a, usage, nu) from by
      rw [bo_loop]
      simp [hlt]]
    exact ha
  | case2 a usage nu hlt m rest ih =>
    intro ha hav
    have hunfold : bo_loop children o a (m :: rest) usage nu =
        bo_loop children o (a ++ [m])
          (remove_bad_mutations children (a ++ [m]) rest false)
          (fun x => if x = m then usage x + 1 else usage x)
          (if usage m = 0 then nu.erase m else nu) := by
      rw [bo_loop]
      simp only [if_pos hlt]
    rw [hunfold]
    refine ih ?_ ?_
    · rw [List.pairwise_append]
      refine ⟨ha, List.pairwise_singleton _ _, ?_⟩
      intro y hy b hb
      rw [List.mem_singleton] at hb
      subst hb
      exact hav b (by simp) y hy
    · intro x hx y hy
      rw [remove_bad_mutations_eq_filter, List.mem_filter] at hx
      have hall := hx.2
      rw [List.all_eq_true] at hall
      have hbad := hall y hy
      rw [Bool.not_eq_eq_eq_not, Bool.not_true] at hbad
      exact hR y x hbad
  | case3 a av usage nu hge =>
    intro ha _
    rw [show bo_loop children o a av usage nu = (a, usage, nu) from by
      rw [bo_loop.eq_def]
      simp [hge]]
    exact ha

/-- When the order is positive, the head of the candidate pool is popped;
if its usage count is zero and it is still in the not-yet-used list, that
list strictly shrinks. -/
theorem bo_loop_progress (children : ν → List ν) (o : Nat) (ho : 1 ≤ o)
    (m : Mutation ν ω) (rest : List (Mutation ν ω)) (usage : Mutation ν ω → Nat)
    (nu : List (Mutation ν ω)) (hum : usage m = 0) (hmnu : m ∈ nu) :
    1 ≤ (bo_loop children o [] (m :: rest) usage nu).1.length ∧
      (bo_loop children o [] (m :: rest) usage nu).2.2.length < nu.length := by
  have hunfold : bo_loop children o [] (m :: rest) usage nu =
      bo_loop children o [m]
        (remove_bad_mutations children [m] rest false)
        (fun x => if x = m then usage x + 1 else usage x)
        (if usage m = 0 then nu.erase m else nu) := by
    rw [bo_loop]
    simp only [if_pos (show ([] : List (Mutation ν ω)).length < o from by simpa using ho)]
    rfl
  rw [hunfold]
  constructor
  · simpa using bo_loop_length_ge children o [m] _ _ _
  · refine lt_of_le_of_lt (bo_loop_nu_length children o [m] _ _ _) ?_
    rw [if_pos hum, List.length_erase_of_mem hmnu]
    have : 1 ≤ nu.length := List.length_pos.2 (List.ne_nil_of_mem hmnu)
    omega

/-! ### The BetweenOperators outer loop -/

/-- The head of the usage-sorted candidate list has usage zero whenever
some list element does. -/
theorem mergeSort_head_usage (usage : Mutation ν ω → Nat) (l : List (Mutation ν ω))
    (m : Mutation ν ω) (t : List (Mutation ν ω))
    (hsort : l.mergeSort (fun x y => decide (usage x ≤ usage y)) = m :: t)
    (h0 : ∃ x ∈ l, usage x = 0) : usage m = 0 ∧ m ∈ l := by
  have hperm := List.mergeSort_perm l (fun x y => decide (usage x ≤ usage y))
  have hsorted := @List.sorted_mergeSort (Mutation ν ω)
    (fun x y => decide (usage x ≤ usage y))
    (fun a b c hab hbc => by
      simp only [decide_eq_true_eq] at *
      omega)
    (fun a b => by
      simp only [Bool.or_eq_true, decide_eq_true_eq]
      omega) l
  rw [hsort] at hperm hsorted
  obtain ⟨x, hxl, hx0⟩ := h0
  have hxin : x ∈ m :: t := hperm.symm.subset hxl
  have hmmem : m ∈ l := hperm.subset (by simp)
  rw [List.mem_cons] at hxin
  rcases hxin with rfl | hxt
  · exact ⟨hx0, hmmem⟩
  · have := (List.pairwise_cons.1 hsorted).1 x hxt
    simp only [decide_eq_true_eq] at this
    exact ⟨by omega, hmmem⟩

theorem bo_loop_fst_nonempty (children : ν → List ν) (o : Nat) (ho : 1 ≤ o)
    (m : Mutation ν ω) (rest : List (Mutation ν ω)) (usage : Mutation ν ω → Nat)
    (nu : List (Mutation ν ω)) :
    1 ≤ (bo_loop children o [] (m :: rest) usage nu).1.length := by
  have hunfold : bo_loop children o [] (m :: rest) usage nu =
      bo_loop children o [m]
        (remove_bad_mutations children [m] rest false)
        (fun x => if x = m then usage x + 1 else usage x)
        (if usage m = 0 then nu.erase m else nu) := by
    rw [bo_loop]
    simp only [if_pos (show ([] : List (Mutation ν ω)).length < o from by simpa using ho)]
    rfl
  rw [hunfold]
  simpa using bo_loop_length_ge children o [m] _ _ _

/-- Specification of the BetweenOperators outer loop: for a positive
order, starting from a duplicate-free not-yet-used list that contains
exactly the zero-usage mutations of interest, the source loop terminates
(flag false), every not-yet-used mutation ends up in some yielded group,
and every group is non-empty of size at most the order. -/
theorem bo_generate_aux_spec (children : ν → List ν) (o : Nat) (ho : 1 ≤ o)
    (mutations : List (Mutation ν ω)) :
    ∀ (usage : Mutation ν ω → Nat) (nu : List (Mutation ν ω)), nu.Nodup →
      (∀ x, x ∈ nu ↔ x ∈ mutations ∧ usage x = 0) →
      (bo_generate_aux children o mutations usage nu).2 = false ∧
      (∀ x ∈ nu, ∃ g ∈ (bo_generate_aux children o mutations usage nu).1, x ∈ g) ∧
      ∀ g ∈ (bo_generate_aux children o mutations usage nu).1, g ≠ [] ∧ g.length ≤ o := by
  have main : ∀ n, ∀ (usage : Mutation ν ω → Nat) (nu : List (Mutation ν ω)),
      nu.length ≤ n → nu.Nodup →
      (∀ x, x ∈ nu ↔ x ∈ mutations ∧ usage x = 0) →
      (bo_generate_aux children o mutations usage nu).2 = false ∧
      (∀ x ∈ nu, ∃ g ∈ (bo_generate_aux children o mutations usage nu).1, x ∈ g) ∧
      ∀ g ∈ (bo_generate_aux children o mutations usage nu).1, g ≠ [] ∧ g.length ≤ o := by
    intro n
    induction n with
    | zero =>
      intro usage nu hlen hnd hinv
      have : nu = [] := List.length_eq_zero.1 (Nat.le_zero.1 hlen)
      subst this
      simp [bo_generate_aux]
    | succ n ihn =>
      intro usage nu hlen hnd hinv
      match nu with
      | [] => simp [bo_generate_aux]
      | m0 :: nrest =>
        have hm0 := (hinv m0).1 (by simp)
        have hmut_ne : mutations ≠ [] := List.ne_nil_of_mem hm0.1
        have hA_ne : mutations.mergeSort (fun x y => decide (usage x ≤ usage y)) ≠ [] := by
          intro hA
          have := (List.mergeSort_perm mutations
            (fun x y => decide (usage x ≤ usage y))).length_eq
          rw [hA] at this
          exact hmut_ne (List.length_eq_zero.1 this.symm)
        match hA : mutations.mergeSort (fun x y => decide (usage x ≤ usage y)) with
        | [] => exact absurd hA hA_ne
        | h :: t =>
          have hhead := mergeSort_head_usage usage mutations h t hA ⟨m0, hm0.1, hm0.2⟩
          have hhnu : h ∈ m0 :: nrest := (hinv h).2 ⟨hhead.2, hhead.1⟩
          have hprog := bo_loop_progress children o ho h t usage (m0 :: nrest) hhead.1 hhnu
          have hlt : (bo_loop children o [] (h :: t) usage (m0 :: nrest)).2.2.length <
              (m0 :: nrest).length := hprog.2
          have hunfold : bo_generate_aux children o mutations usage (m0 :: nrest) =
              ((bo_loop children o [] (h :: t) usage (m0 :: nrest)).1 ::
                  (bo_generate_aux children o mutations
                    (bo_loop children o [] (h :: t) usage (m0 :: nrest)).2.1
                    (bo_loop children o [] (h :: t) usage (m0 :: nrest)).2.2).1,
                (bo_generate_aux children o mutations
                  (bo_loop children o [] (h :: t) usage (m0 :: nrest)).2.1
                  (bo_loop children o [] (h :: t) usage (m0 :: nrest)).2.2).2) := by
            rw [bo_generate_aux]
            rw [hA]
            simp only [dif_pos hlt]
          have hinv2 := bo_loop_invariant children o (fun x => x ∈ mutations)
            [] (h :: t) usage (m0 :: nrest) hnd hinv
          have hlen2 : (bo_loop children o [] (h :: t) usage (m0 :: nrest)).2.2.length ≤ n := by
            simp only [List.length_cons] at hlt hlen
            omega
          obtain ⟨ihflag, ihcov, ihgroups⟩ := ihn _ _ hlen2 hinv2.2 hinv2.1
          refine ⟨?_, ?_, ?_⟩
          · rw [hunfold]
            exact ihflag
          · intro x hx
            rw [hunfold]
            by_cases hxr : x ∈ (bo_loop children o [] (h :: t) usage (m0 :: nrest)).2.2
            · obtain ⟨g, hg, hxg⟩ := ihcov x hxr
              exact ⟨g, List.mem_cons_of_mem _ hg, hxg⟩
            · exact ⟨_, by simp, bo_loop_covered children o [] (h :: t) usage
                (m0 :: nrest) x hx hxr⟩
          · rw [hunfold]
            intro g hg
            rw [List.mem_cons] at hg
            rcases hg with rfl | hg
            · refine ⟨?_, ?_⟩
              · have h1 := hprog.1
                intro hnil
                rw [hnil] at h1
                simp at h1
              · simpa using bo_loop_length children o [] (h :: t) usage (m0 :: nrest)
            · exact ihgroups g hg
  exact fun usage nu => main nu.length usage nu (le_refl _)

/-- Every group yielded by the BetweenOperators outer loop is pairwise
compatible in the sense of the conflict filter with same operators
disallowed (no order or duplicate-freedom hypotheses). -/
theorem bo_generate_aux_pairwise (children : ν → List ν)
    (R : Mutation ν ω → Mutation ν ω → Prop)
    (hR : ∀ a m : Mutation ν ω, badMutation children false a m = false → R a m) (o : Nat)
    (mutations : List (Mutation ν ω)) :
    ∀ (usage : Mutation ν ω → Nat) (nu : List (Mutation ν ω)),
      ∀ g ∈ (bo_generate_aux children o mutations usage nu).1, g.Pairwise R := by
  have main : ∀ n, ∀ (usage : Mutation ν ω → Nat) (nu : List (Mutation ν ω)), nu.length ≤ n →
      ∀ g ∈ (bo_generate_aux children o mutations usage nu).1, g.Pairwise R := by
    intro n
    induction n with
    | zero =>
      intro usage nu hlen
      have : nu = [] := List.length_eq_zero.1 (Nat.le_zero.1 hlen)
      subst this
      simp [bo_generate_aux]
    | succ n ihn =>
      intro usage nu hlen
      match nu with
      | [] => simp [bo_generate_aux]
      | m0 :: nrest =>
        match hA : mutations.mergeSort (fun x y => decide (usage x ≤ usage y)) with
        | [] =>
          -- with an empty sorted pool the inner loop returns an empty group
          have hloop : bo_loop children o [] ([] : List (Mutation ν ω)) usage (m0 :: nrest) =
              ([], usage, m0 :: nrest) := by
            rw [bo_loop.eq_def]
            split
            · rfl
            · rfl
          by_cases hlt : (bo_loop children o []
              ([] : List (Mutation ν ω)) usage (m0 :: nrest)).2.2.length <
              (m0 :: nrest).length
          · have hunfold2 : bo_generate_aux children o mutations usage (m0 :: nrest) =
                ((bo_loop children o [] ([] : List (Mutation ν ω)) usage (m0 :: nrest)).1 ::
                    (bo_generate_aux children o mutations
                      (bo_loop children o [] ([] : List (Mutation ν ω)) usage
                        (m0 :: nrest)).2.1
                      (bo_loop children o [] ([] : List (Mutation ν ω)) usage
                        (m0 :: nrest)).2.2).1,
                  (bo_generate_aux children o mutations
                    (bo_loop children o [] ([] : List (Mutation ν ω)) usage
                      (m0 :: nrest)).2.1
                    (bo_loop children o [] ([] : List (Mutation ν ω)) usage
                      (m0 :: nrest)).2.2).2) := by
              rw [bo_generate_aux]
              rw [hA]
              simp only [dif_pos hlt]
            rw [hunfold2]
            intro g hg
            rw [List.mem_cons] at hg
            rcases hg with rfl | hg
            · rw [hloop]
              exact List.Pairwise.nil
            · refine ihn _ _ ?_ g hg
              simp only [List.length_cons] at hlt hlen
              omega
          · have hunfold2 : bo_generate_aux children o mutations usage (m0 :: nrest) =
                ([(bo_loop children o [] ([] : List (Mutation ν ω)) usage
                    (m0 :: nrest)).1], true) := by
              rw [bo_generate_aux]
              rw [hA]
              simp only [dif_neg hlt]
            rw [hunfold2]
            intro g hg
            rw [List.mem_singleton] at hg
            subst hg
            rw [hloop]
            exact List.Pairwise.nil
        | h :: t =>
          have hpair := bo_loop_pairwise children R hR o [] (h :: t) usage (m0 :: nrest)
            (List.Pairwise.nil) (by simp)
          by_cases hlt : (bo_loop children o [] (h :: t) usage (m0 :: nrest)).2.2.length <
              (m0 :: nrest).length
          · have hunfold : bo_generate_aux children o mutations usage (m0 :: nrest) =
                ((bo_loop children o [] (h :: t) usage (m0 :: nrest)).1 ::
                    (bo_generate_aux children o mutations
                      (bo_loop children o [] (h :: t) usage (m0 :: nrest)).2.1
                      (bo_loop children o [] (h :: t) usage (m0 :: nrest)).2.2).1,
                  (bo_generate_aux children o mutations
                    (bo_loop children o [] (h :: t) usage (m0 :: nrest)).2.1
                    (bo_loop children o [] (h :: t) usage (m0 :: nrest)).2.2).2) := by
              rw [bo_generate_aux]
              rw [hA]
              simp only [dif_pos hlt]
            rw [hunfold]
            intro g hg
            rw [List.mem_cons] at hg
            rcases hg with rfl | hg
            · exact hpair
            · refine ihn _ _ ?_ g hg
              simp only [List.length_cons] at hlt hlen
              omega
          · have hunfold : bo_generate_aux children o mutations usage (m0 :: nrest) =
                ([(bo_loop children o [] (h :: t) usage (m0 :: nrest)).1], true) := by
              rw [bo_generate_aux]
              rw [hA]
              simp only [dif_neg hlt]
            rw [hunfold]
            intro g hg
            rw [List.mem_singleton] at hg
            subst hg
            exact hpair
  exact fun usage nu => main nu.length usage nu (le_refl _)

/-- Groups yielded by the BetweenOperators outer loop are non-empty: the
not-yet-used list always consists of input mutations, so the sorted
candidate pool is non-empty and with a positive order the inner loop pops
at least one mutation. -/
theorem bo_generate_aux_nonempty (children : ν → List ν) (o : Nat) (ho : 1 ≤ o)
    (mutations : List (Mutation ν ω)) :
    ∀ (usage : Mutation ν ω → Nat) (nu : List (Mutation ν ω)),
      (∀ x ∈ nu, x ∈ mutations) →
      ∀ g ∈ (bo_generate_aux children o mutations usage nu).1, g ≠ [] := by
  have main : ∀ n, ∀ (usage : Mutation ν ω → Nat) (nu : List (Mutation ν ω)), nu.length ≤ n →
      (∀ x ∈ nu, x ∈ mutations) →
      ∀ g ∈ (bo_generate_aux children o mutations usage nu).1, g ≠ [] := by
    intro n
    induction n with
    | zero =>
      intro usage nu hlen _
      have : nu = [] := List.length_eq_zero.1 (Nat.le_zero.1 hlen)
      subst this
      simp [bo_generate_aux]
    | succ n ihn =>
      intro usage nu hlen hsub
      match nu with
      | [] => simp [bo_generate_aux]
      | m0 :: nrest =>
        have hmut_ne : mutations ≠ [] := List.ne_nil_of_mem (hsub m0 (by simp))
        have hA_ne : mutations.mergeSort (fun x y => decide (usage x ≤ usage y)) ≠ [] := by
          intro hA
          have := (List.mergeSort_perm mutations
            (fun x y => decide (usage x ≤ usage y))).length_eq
          rw [hA] at this
          exact hmut_ne (List.length_eq_zero.1 this.symm)
        match hA : mutations.mergeSort (fun x y => decide (usage x ≤ usage y)) with
        | [] => exact absurd hA hA_ne
        | h :: t =>
          have hne : (bo_loop children o [] (h :: t) usage (m0 :: nrest)).1 ≠ [] := by
            have h1 := bo_loop_fst_nonempty children o ho h t usage (m0 :: nrest)
            intro hnil
            rw [hnil] at h1
            simp at h1
          by_cases hlt : (bo_loop children o [] (h :: t) usage (m0 :: nrest)).2.2.length <
              (m0 :: nrest).length
          · have hunfold : bo_generate_aux children o mutations usage (m0 :: nrest) =
                ((bo_loop children o [] (h :: t) usage (m0 :: nrest)).1 ::
                    (bo_generate_aux children o mutations
                      (bo_loop children o [] (h :: t) usage (m0 :: nrest)).2.1
                      (bo_loop children o [] (h :: t) usage (m0 :: nrest)).2.2).1,
                  (bo_generate_aux children o mutations
                    (bo_loop children o [] (h :: t) usage (m0 :: nrest)).2.1
                    (bo_loop children o [] (h :: t) usage (m0 :: nrest)).2.2).2) := by
              rw [bo_generate_aux]
              rw [hA]
              simp only [dif_pos hlt]
            rw [hunfold]
            intro g hg
            rw [List.mem_cons] at hg
            rcases hg with rfl | hg
            · exact hne
            · refine ihn _ _ ?_ ?_ g hg
              · simp only [List.length_cons] at hlt hlen
                omega
              · intro x hx
                exact hsub x (bo_loop_nu_subset children o [] (h :: t) usage
                  (m0 :: nrest) x hx)
          · have hunfold : bo_generate_aux children o mutations usage (m0 :: nrest) =
                ([(bo_loop children o [] (h :: t) usage (m0 :: nrest)).1], true) := by
              rw [bo_generate_aux]
              rw [hA]
              simp only [dif_neg hlt]
            rw [hunfold]
            intro g hg
            rw [List.mem_singleton] at hg
            subst hg
            exact hne
  exact fun usage nu => main nu.length usage nu (le_refl _)

end Strategies

/-! ### Controller: subprocess deadline and outcome classification
(MutationController.run_mutation_subprocess and
MutationController.update_score_and_notify_views) -/

/-- The fields of a mutation-subprocess result that
update_score_and_notify_views inspects. -/
structure MutantResult where
  is_incompetent : Bool
  is_survived : Bool
deriving DecidableEq, Repr

/-- The outcome classes of one mutant execution, doubling as the
notification kind sent to the views. -/
inductive MutantOutcome
  | timeout
  | incompetent
  | survived
  | killed
deriving DecidableEq, Repr

/-- The deadline passed to MutationSubprocess.get_result:
timeout_factor * (total_duration if total_duration > 1 else 1). -/
def live_time (timeout_factor total_duration : ℚ) : ℚ :=
  timeout_factor * (if total_duration > 1 then total_duration else 1)

/-- What run_mutation_subprocess did: the deadline used, the result the
child returned before the deadline (none on expiry), and whether
terminate() was called, which the source does unconditionally. -/
structure SubprocessTrace where
  deadline : ℚ
  result : Option MutantResult
  terminate_called : Bool
deriving DecidableEq

/-- MutationController.run_mutation_subprocess: start the child, wait for
a result until the deadline, terminate the child. The child's behaviour
is abstracted as a map from the waited deadline to an optional result. -/
def run_mutation_subprocess (timeout_factor total_duration : ℚ)
    (get_result : ℚ → Option MutantResult) : SubprocessTrace :=
  { deadline := live_time timeout_factor total_duration
    result := get_result (live_time timeout_factor total_duration)
    terminate_called := true }

/-- MutationController.update_score_and_notify_views: classify the result
(no result means timeout, then incompetent, then survived, else killed),
update the matching counter and send the matching notification. -/
def update_score_and_notify_views (score : MutationScore) (result : Option MutantResult) :
    MutationScore × MutantOutcome :=
  match result with
  | none => (score.inc_timeout, MutantOutcome.timeout)
  | some r =>
    if r.is_incompetent then (score.inc_incompetent, MutantOutcome.incompetent)
    else if r.is_survived then (score.inc_survived, MutantOutcome.survived)
    else (score.inc_killed, MutantOutcome.killed)

/-! ### Controller: mutate_module's per-target control flow (C7, C8) -/

/-- Observable actions of MutationController.mutate_module: processing
one mutant of the generator stream, and the repair_tests_modules call
that rebinds every test module back to the original target. -/
inductive ControllerAction (ε : Type)
  | run_mutant (i : Nat)
  | repair

/-- The statement-level control flow of mutate_module's mutant loop:
each mutant's processing either completes or raises (modelled by an
optional exception); repair_tests_modules is the statement after the
for-loop, with no try/finally around the loop, so an exception
propagates immediately and skips the repair. Returns the executed
actions and the escaping exception, if any. -/
def mutate_module_actions {ε : Type} : Nat → List (Option ε) →
    List (ControllerAction ε) × Option ε
  | _, [] => ([ControllerAction.repair], none)
  | i, none :: rest =>
    let r := mutate_module_actions (i + 1) rest
    (ControllerAction.run_mutant i :: r.1, r.2)
  | i, some e :: _ => ([ControllerAction.run_mutant i], some e)

/-- What one generated mutant does when actually processed:
whether create_mutant_module succeeds, and the subprocess result of the
test run (consulted only on successful construction). -/
structure MutantRun where
  constructed : Bool
  result : Option MutantResult
deriving DecidableEq, Repr

/-- The per-mutant events of mutate_module: a mutant skipped by the
mutation_number filter (incompetent counter incremented, no
notification, no construction, no test run), or a mutant processed
normally (notify_mutation, construction, test run). -/
inductive MutEvent
  | skipped (ordinal : Nat)
  | processed (ordinal : Nat) (run : MutantRun)
deriving DecidableEq, Repr

/-- The normal processing path of one mutant in mutate_module: on
construction failure the incompetent counter is incremented, otherwise
the subprocess result is classified by update_score_and_notify_views. -/
def process_mutant (score : MutationScore) (run : MutantRun) : MutationScore :=
  if run.constructed then (update_score_and_notify_views score run.result).1
  else score.inc_incompetent

/-- The mutant loop of mutate_module: the ordinal of each mutant is
score.all_mutants + 1; when a mutation_number is configured (a truthy
value, so neither None nor 0) and differs from the ordinal, the mutant is
recorded incompetent and skipped; otherwise it is processed normally. -/
def mutate_module_loop (mutation_number : Option Nat) (score : MutationScore) :
    List MutantRun → MutationScore × List MutEvent
  | [] => (score, [])
  | run :: rest =>
    if mutation_number.getD 0 ≠ 0 ∧ mutation_number.getD 0 ≠ score.all_mutants + 1 then
      let r := mutate_module_loop mutation_number score.inc_incompetent rest
      (r.1, MutEvent.skipped (score.all_mutants + 1) :: r.2)
    else
      let r := mutate_module_loop mutation_number (process_mutant score run) rest
      (r.1, MutEvent.processed (score.all_mutants + 1) run :: r.2)

/-! ### Controller lemmas -/

theorem mutate_module_actions_ne_nil {ε : Type} :
    ∀ (i : Nat) (steps : List (Option ε)), (mutate_module_actions i steps).1 ≠ [] := by
  intro i steps
  match steps with
  | [] => simp [mutate_module_actions]
  | none :: rest => simp [mutate_module_actions]
  | some e :: rest => simp [mutate_module_actions]

/-- When no mutant processing raises, mutate_module runs every mutant and
then calls repair_tests_modules exactly once, as the final action. -/
theorem mutate_module_actions_clean {ε : Type} :
    ∀ (steps : List (Option ε)) (i : Nat), (∀ x ∈ steps, x = none) →
      (mutate_module_actions i steps).1.countP
          (fun a => match a with | ControllerAction.repair => true | _ => false) = 1 ∧
      (mutate_module_actions i steps).1.getLast? = some ControllerAction.repair ∧
      (mutate_module_actions i steps).2 = none := by
  intro steps
  induction steps with
  | nil =>
    intro i _
    simp [mutate_module_actions, List.countP_cons, List.countP_nil]
  | cons x rest ih =>
    intro i hall
    have hx : x = none := hall x (by simp)
    subst hx
    obtain ⟨ihc, ihl, ihe⟩ := ih (i + 1) (fun y hy => hall y (by simp [hy]))
    simp only [mutate_module_actions]
    refine ⟨?_, ?_, ihe⟩
    · rw [List.countP_cons]
      simpa using ihc
    · obtain ⟨y, ys, hys⟩ : ∃ y ys, (mutate_module_actions (i + 1) rest).1 = y :: ys := by
        match hm : (mutate_module_actions (i + 1) rest).1 with
        | [] => exact absurd hm (mutate_module_actions_ne_nil _ _)
        | y :: ys => exact ⟨y, ys, rfl⟩
      rw [hys] at ihl ⊢
      rw [List.getLast?_cons_cons]
      exact ihl

/-- When some mutant processing raises, the exception escapes
mutate_module and repair_tests_modules is never reached. -/
theorem mutate_module_actions_raised {ε : Type} :
    ∀ (steps : List (Option ε)) (i : Nat) (e : ε), (mutate_module_actions i steps).2 = some e →
      ControllerAction.repair ∉ (mutate_module_actions i steps).1 := by
  intro steps
  induction steps with
  | nil =>
    intro i e h
    simp [mutate_module_actions] at h
  | cons x rest ih =>
    intro i e h
    match x with
    | none =>
      simp only [mutate_module_actions] at h ⊢
      intro hmem
      rw [List.mem_cons] at hmem
      rcases hmem with hmem | hmem
      · exact absurd hmem (by simp)
      · exact absurd hmem (ih (i + 1) e h)
    | some e2 =>
      simp only [mutate_module_actions]
      simp

/-- Classification increments exactly one counter, so all_mutants grows
by one for every mutant that reaches update_score_and_notify_views. -/
theorem update_score_all_mutants (s : MutationScore) (r : Option MutantResult) :
    (update_score_and_notify_views s r).1.all_mutants = s.all_mutants + 1 := by
  match r with
  | none =>
    simp only [update_score_and_notify_views, MutationScore.all_mutants,
      MutationScore.inc_timeout]
    omega
  | some res =>
    simp only [update_score_and_notify_views]
    split
    · simp only [MutationScore.all_mutants, MutationScore.inc_incompetent]
      omega
    · split
      · simp only [MutationScore.all_mutants, MutationScore.inc_survived]
        omega
      · simp only [MutationScore.all_mutants, MutationScore.inc_killed]
        omega

theorem process_mutant_all_mutants (s : MutationScore) (run : MutantRun) :
    (process_mutant s run).all_mutants = s.all_mutants + 1 := by
  rw [process_mutant]
  split
  · exact update_score_all_mutants s run.result
  · simp [MutationScore.all_mutants, MutationScore.inc_incompetent]
    omega

/-- The events of the mutant loop, in closed form: the i-th generated
mutant has ordinal all_mutants + i + 1 and is skipped exactly when a
truthy mutation_number different from that ordinal is configured. -/
theorem mutate_module_loop_events (k : Option Nat) :
    ∀ (runs : List MutantRun) (s : MutationScore),
      (mutate_module_loop k s runs).2 =
        (runs.enumFrom (s.all_mutants + 1)).map (fun p =>
          if k.getD 0 ≠ 0 ∧ k.getD 0 ≠ p.1 then MutEvent.skipped p.1
          else MutEvent.processed p.1 p.2) := by
  intro runs
  induction runs with
  | nil =>
    intro s
    simp [mutate_module_loop]
  | cons run rest ih =>
    intro s
    rw [List.enumFrom_cons]
    simp only [List.map_cons]
    by_cases hguard : k.getD 0 ≠ 0 ∧ k.getD 0 ≠ s.all_mutants + 1
    · rw [mutate_module_loop, if_pos hguard, if_pos hguard]
      have hall : s.inc_incompetent.all_mutants = s.all_mutants + 1 := by
        simp only [MutationScore.all_mutants, MutationScore.inc_incompetent]
        omega
      dsimp only
      rw [ih s.inc_incompetent, hall]
    · rw [mutate_module_loop, if_neg hguard, if_neg hguard]
      dsimp only
      rw [ih (process_mutant s run), process_mutant_all_mutants]

/-- The sum of the killed, timeout and survived counters: only a mutant
that is actually executed can move it. -/
def executed_mutants (s : MutationScore) : Nat :=
  s.killed_mutants + s.timeout_mutants + s.survived_mutants

theorem process_mutant_executed_le (s : MutationScore) (run : MutantRun) :
    executed_mutants (process_mutant s run) ≤ executed_mutants s + 1 := by
  rw [process_mutant]
  split
  · match hr : run.result with
    | none =>
      simp [update_score_and_notify_views, executed_mutants, MutationScore.inc_timeout]
      omega
    | some res =>
      simp only [update_score_and_notify_views]
      split
      · simp [executed_mutants, MutationScore.inc_incompetent]
      · split
        · simp [executed_mutants, MutationScore.inc_survived]
          omega
        · simp [executed_mutants, MutationScore.inc_killed]
          omega
  · simp [executed_mutants, MutationScore.inc_incompetent]

theorem mutate_module_loop_all_mutants (k : Option Nat) :
    ∀ (runs : List MutantRun) (s : MutationScore),
      (mutate_module_loop k s runs).1.all_mutants = s.all_mutants + runs.length := by
  intro runs
  induction runs with
  | nil =>
    intro s
    simp [mutate_module_loop]
  | cons run rest ih =>
    intro s
    rw [mutate_module_loop]
    split
    · rw [ih]
      simp only [MutationScore.all_mutants, MutationScore.inc_incompetent, List.length_cons]
      omega
    · rw [ih, process_mutant_all_mutants]
      simp only [List.length_cons]
      omega

/-- Once the requested ordinal is in the past, every remaining mutant is
skipped and the executed count stays put. -/
theorem mutate_module_loop_executed_passed (n : Nat) (hn : n ≠ 0) :
    ∀ (runs : List MutantRun) (s : MutationScore), n ≤ s.all_mutants →
      executed_mutants (mutate_module_loop (some n) s runs).1 = executed_mutants s := by
  intro runs
  induction runs with
  | nil =>
    intro s _
    simp [mutate_module_loop]
  | cons run rest ih =>
    intro s hns
    rw [mutate_module_loop]
    rw [if_pos (by
      constructor
      · simpa using hn
      · simp only [Option.getD_some]
        omega)]
    rw [ih s.inc_incompetent (by
      simp only [MutationScore.all_mutants, MutationScore.inc_incompetent] at *
      omega)]
    simp [executed_mutants, MutationScore.inc_incompetent]

/-- With a requested mutant ordinal, at most one mutant of the stream is
ever executed. -/
theorem mutate_module_loop_executed_le (n : Nat) (hn : n ≠ 0) :
    ∀ (runs : List MutantRun) (s : MutationScore),
      executed_mutants (mutate_module_loop (some n) s runs).1 ≤ executed_mutants s + 1 := by
  intro runs
  induction runs with
  | nil =>
    intro s
    simp [mutate_module_loop]
  | cons run rest ih =>
    intro s
    rw [mutate_module_loop]
    by_cases hguard : (some n : Option Nat).getD 0 ≠ 0 ∧
        (some n : Option Nat).getD 0 ≠ s.all_mutants + 1
    · rw [if_pos hguard]
      refine le_trans (ih s.inc_incompetent) ?_
      simp [executed_mutants, MutationScore.inc_incompetent]
    · rw [if_neg hguard]
      have hn2 : n = s.all_mutants + 1 := by
        simp only [Option.getD_some] at hguard
        push_neg at hguard
        exact hguard (by simpa using hn)
      have hpassed : n ≤ (process_mutant s run).all_mutants := by
        rw [process_mutant_all_mutants]
        omega
      rw [mutate_module_loop_executed_passed n hn rest _ hpassed]
      exact process_mutant_executed_le s run

/-! ### Decoding the conflict condition, and score bounds -/

section Strategies

variable {ν ω : Type} [DecidableEq ν] [DecidableEq ω]

theorem badMutation_eq_false_iff (children : ν → List ν) (allow : Bool)
    (a m : Mutation ν ω) :
    badMutation children allow a m = false ↔
      ¬(a.node = m.node ∨ a.node ∈ children m.node ∨ m.node ∈ children a.node ∨
        (allow = false ∧ a.op = m.op)) := by
  cases allow with
  | true =>
    simp [badMutation]
    tauto
  | false =>
    simp [badMutation]
    tauto

theorem badMutation_false_no_node_conflict (children : ν → List ν) (allow : Bool)
    (a m : Mutation ν ω) (h : badMutation children allow a m = false) :
    ¬(a.node = m.node ∨ a.node ∈ children m.node ∨ m.node ∈ children a.node) := by
  have := (badMutation_eq_false_iff children allow a m).1 h
  tauto

theorem badMutation_false_op_ne (children : ν → List ν)
    (a m : Mutation ν ω) (h : badMutation children false a m = false) :
    a.op ≠ m.op := by
  have := (badMutation_eq_false_iff children false a m).1 h
  tauto

end Strategies

/-- The score percentage is always between 0 and 100: the numerator
killed+timeout never exceeds the denominator all_mutants-incompetent,
because the denominator is killed+timeout+survived. -/
theorem count_bounds (s : MutationScore) :
    0 ≤ s.count ∧ s.count ≤ 100 ∧
      s.killed_mutants + s.timeout_mutants ≤ s.all_mutants - s.incompetent_mutants := by
  have hall : s.all_mutants =
      s.killed_mutants + s.timeout_mutants + s.incompetent_mutants + s.survived_mutants := rfl
  have hnat : s.killed_mutants + s.timeout_mutants ≤ s.all_mutants - s.incompetent_mutants := by
    rw [hall]
    omega
  refine ⟨?_, ?_, hnat⟩ <;>
  · rw [MutationScore.count]
    have hb : ((s.all_mutants : ℚ) - (s.incompetent_mutants : ℚ)) =
        ((s.killed_mutants : ℚ) + (s.timeout_mutants : ℚ) + (s.survived_mutants : ℚ)) := by
      rw [hall]
      push_cast
      ring
    split
    case isTrue h =>
      rw [hb] at h ⊢
      have hnum : (0 : ℚ) ≤ (s.killed_mutants : ℚ) + (s.timeout_mutants : ℚ) := by positivity
      have hden0 : (0 : ℚ) ≤ (s.killed_mutants : ℚ) + (s.timeout_mutants : ℚ) +
          (s.survived_mutants : ℚ) := by positivity
      have hden : (0 : ℚ) < (s.killed_mutants : ℚ) + (s.timeout_mutants : ℚ) +
          (s.survived_mutants : ℚ) := lt_of_le_of_ne hden0 (Ne.symm h)
      first
      | positivity
      | · have hle : ((s.killed_mutants : ℚ) + (s.timeout_mutants : ℚ)) /
              ((s.killed_mutants : ℚ) + (s.timeout_mutants : ℚ) + (s.survived_mutants : ℚ)) ≤ 1 :=
            (div_le_one hden).2 (le_add_of_nonneg_right (by positivity))
          calc ((s.killed_mutants : ℚ) + (s.timeout_mutants : ℚ)) /
              ((s.killed_mutants : ℚ) + (s.timeout_mutants : ℚ) + (s.survived_mutants : ℚ)) * 100
              ≤ 1 * 100 := by
                apply mul_le_mul_of_nonneg_right hle
                norm_num
            _ = 100 := by norm_num
    case isFalse h =>
      norm_num

/-! ### Claim theorems -/

/-- C1, counterexample: the claim asserts that after inc_killed twice,
inc_survived once and inc_incompetent once, count() returns exactly 50.0;
on the code it returns (2+0)/(4-1)*100 = 200/3, which is not 50. -/
theorem claim_C1_counterexample :
    ((((MutationScore.init.inc_killed).inc_killed).inc_survived).inc_incompetent).count =
        200 / 3 ∧
      ((((MutationScore.init.inc_killed).inc_killed).inc_survived).inc_incompetent).count ≠
        50 := by
  constructor
  · norm_num [MutationScore.count, MutationScore.all_mutants, MutationScore.init,
      MutationScore.inc_killed, MutationScore.inc_survived, MutationScore.inc_incompetent]
  · norm_num [MutationScore.count, MutationScore.all_mutants, MutationScore.init,
      MutationScore.inc_killed, MutationScore.inc_survived, MutationScore.inc_incompetent]

/-- C1 (amended): count() returns (killed+timeout)/(all_mutants-incompetent)*100
when the denominator is nonzero and 0 when it is zero; a fresh score
counts 0; and after inc_killed twice, inc_survived once and
inc_incompetent once it returns 200/3 (about 66.67), not 50. -/
theorem claim_C1 (s : MutationScore) :
    (s.all_mutants ≠ s.incompetent_mutants →
      s.count = ((s.killed_mutants : ℚ) + (s.timeout_mutants : ℚ)) /
        ((s.all_mutants : ℚ) - (s.incompetent_mutants : ℚ)) * 100) ∧
    (s.all_mutants = s.incompetent_mutants → s.count = 0) ∧
    MutationScore.init.count = 0 ∧
    ((((MutationScore.init.inc_killed).inc_killed).inc_survived).inc_incompetent).count =
      200 / 3 := by
  refine ⟨?_, ?_, ?_, ?_⟩
  · intro h
    rw [MutationScore.count]
    rw [if_pos ?_]
    intro hc
    rw [sub_eq_zero] at hc
    exact h (Nat.cast_injective hc)
  · intro h
    rw [MutationScore.count]
    rw [if_neg ?_]
    intro hc
    apply hc
    rw [sub_eq_zero, h]
  · norm_num [MutationScore.count, MutationScore.all_mutants, MutationScore.init]
  · norm_num [MutationScore.count, MutationScore.all_mutants, MutationScore.init,
      MutationScore.inc_killed, MutationScore.inc_survived, MutationScore.inc_incompetent]

/-- C1, witness: the amended theorem evaluated at two concrete scores,
one with a zero denominator (the fresh score) and one with a nonzero
denominator. -/
theorem claim_C1_witness :
    MutationScore.init.count = 0 ∧
      (MutationScore.init.inc_killed).count =
        (((MutationScore.init.inc_killed).killed_mutants : ℚ) +
          ((MutationScore.init.inc_killed).timeout_mutants : ℚ)) /
          (((MutationScore.init.inc_killed).all_mutants : ℚ) -
            ((MutationScore.init.inc_killed).incompetent_mutants : ℚ)) * 100 :=
  ⟨(claim_C1 MutationScore.init).2.1 (by decide),
    (claim_C1 MutationScore.init.inc_killed).1 (by decide)⟩

/-- C2: in every score state all_mutants is the sum of the four outcome
counters, and each inc_* operation increments exactly its own counter by
one, leaves every other field unchanged, and raises all_mutants by one. -/
theorem claim_C2 (s : MutationScore) :
    s.all_mutants = s.killed_mutants + s.timeout_mutants + s.incompetent_mutants +
      s.survived_mutants ∧
    (s.inc_killed.killed_mutants = s.killed_mutants + 1 ∧
      s.inc_killed.timeout_mutants = s.timeout_mutants ∧
      s.inc_killed.incompetent_mutants = s.incompetent_mutants ∧
      s.inc_killed.survived_mutants = s.survived_mutants ∧
      s.inc_killed.covered_nodes = s.covered_nodes ∧
      s.inc_killed.all_nodes = s.all_nodes) ∧
    (s.inc_timeout.timeout_mutants = s.timeout_mutants + 1 ∧
      s.inc_timeout.killed_mutants = s.killed_mutants ∧
      s.inc_timeout.incompetent_mutants = s.incompetent_mutants ∧
      s.inc_timeout.survived_mutants = s.survived_mutants ∧
      s.inc_timeout.covered_nodes = s.covered_nodes ∧
      s.inc_timeout.all_nodes = s.all_nodes) ∧
    (s.inc_incompetent.incompetent_mutants = s.incompetent_mutants + 1 ∧
      s.inc_incompetent.killed_mutants = s.killed_mutants ∧
      s.inc_incompetent.timeout_mutants = s.timeout_mutants ∧
      s.inc_incompetent.survived_mutants = s.survived_mutants ∧
      s.inc_incompetent.covered_nodes = s.covered_nodes ∧
      s.inc_incompetent.all_nodes = s.all_nodes) ∧
    (s.inc_survived.survived_mutants = s.survived_mutants + 1 ∧
      s.inc_survived.killed_mutants = s.killed_mutants ∧
      s.inc_survived.timeout_mutants = s.timeout_mutants ∧
      s.inc_survived.incompetent_mutants = s.incompetent_mutants ∧
      s.inc_survived.covered_nodes = s.covered_nodes ∧
      s.inc_survived.all_nodes = s.all_nodes) ∧
    s.inc_killed.all_mutants = s.all_mutants + 1 ∧
    s.inc_timeout.all_mutants = s.all_mutants + 1 ∧
    s.inc_incompetent.all_mutants = s.all_mutants + 1 ∧
    s.inc_survived.all_mutants = s.all_mutants + 1 := by
  refine ⟨rfl, ⟨rfl, rfl, rfl, rfl, rfl, rfl⟩, ⟨rfl, rfl, rfl, rfl, rfl, rfl⟩,
    ⟨rfl, rfl, rfl, rfl, rfl, rfl⟩, ⟨rfl, rfl, rfl, rfl, rfl, rfl⟩, ?_, ?_, ?_, ?_⟩
  · simp only [MutationScore.all_mutants, MutationScore.inc_killed]
    omega
  · simp only [MutationScore.all_mutants, MutationScore.inc_timeout]
    omega
  · simp only [MutationScore.all_mutants, MutationScore.inc_incompetent]
    omega
  · simp only [MutationScore.all_mutants, MutationScore.inc_survived]
    omega

/-- C10: in every reachable score state the percentage is between 0 and
100, because killed+timeout never exceeds all_mutants-incompetent. -/
theorem claim_C10 (s : MutationScore) (h : s.Reachable) :
    0 ≤ s.count ∧ s.count ≤ 100 ∧
      s.killed_mutants + s.timeout_mutants ≤ s.all_mutants - s.incompetent_mutants :=
  count_bounds s

/-- C10, witness: a concrete reachable state. -/
theorem claim_C10_witness :
    0 ≤ (MutationScore.init.inc_killed.inc_incompetent).count ∧
      (MutationScore.init.inc_killed.inc_incompetent).count ≤ 100 ∧
      (MutationScore.init.inc_killed.inc_incompetent).killed_mutants +
          (MutationScore.init.inc_killed.inc_incompetent).timeout_mutants ≤
        (MutationScore.init.inc_killed.inc_incompetent).all_mutants -
          (MutationScore.init.inc_killed.inc_incompetent).incompetent_mutants :=
  claim_C10 _ (MutationScore.Reachable.incompetent
    (MutationScore.Reachable.killed MutationScore.Reachable.init))

section ClaimStrategies

variable {ν ω : Type} [DecidableEq ν] [DecidableEq ω]

/-- C3: for a positive order, the EachChoice, FirstToLast and Random
strategies terminate and yield groups that partition the input mutation
list — the concatenation of the groups is a permutation of the input, so
every input mutation appears in exactly one group, none lost and none
duplicated — every group has length at most the order, and an empty
input yields no groups. Random is relative to any shuffler that permutes
its input, as random.shuffle does. -/
theorem claim_C3 (children : ν → List ν) (order : Nat) (ho : 1 ≤ order)
    (shuffler : List (Mutation ν ω) → List (Mutation ν ω))
    (mutations : List (Mutation ν ω)) (hshuf : (shuffler mutations).Perm mutations) :
    ((EachChoiceHOMStrategy.generate children order mutations).1.flatten.Perm mutations ∧
      (EachChoiceHOMStrategy.generate children order mutations).2 = false ∧
      (∀ g ∈ (EachChoiceHOMStrategy.generate children order mutations).1,
        g.length ≤ order) ∧
      (mutations = [] → (EachChoiceHOMStrategy.generate children order mutations).1 = [])) ∧
    ((FirstToLastHOMStrategy.generate children order mutations).1.flatten.Perm mutations ∧
      (FirstToLastHOMStrategy.generate children order mutations).2 = false ∧
      (∀ g ∈ (FirstToLastHOMStrategy.generate children order mutations).1,
        g.length ≤ order) ∧
      (mutations = [] → (FirstToLastHOMStrategy.generate children order mutations).1 = [])) ∧
    ((RandomHOMStrategy.generate children order shuffler mutations).1.flatten.Perm mutations ∧
      (RandomHOMStrategy.generate children order shuffler mutations).2 = false ∧
      (∀ g ∈ (RandomHOMStrategy.generate children order shuffler mutations).1,
        g.length ≤ order) ∧
      (mutations = [] →
        (RandomHOMStrategy.generate children order shuffler mutations).1 = [])) := by
  obtain ⟨ecflag, ecjoin, ecgroups⟩ := each_choice_generate_aux_spec children order ho mutations
  obtain ⟨ftlflag, ftljoin, ftlgroups⟩ := ftl_generate_aux_spec children order ho mutations
  obtain ⟨rflag, rjoin, rgroups⟩ :=
    each_choice_generate_aux_spec children order ho (shuffler mutations)
  refine ⟨⟨?_, ecflag, fun g hg => (ecgroups g hg).2, ?_⟩,
    ⟨?_, ftlflag, fun g hg => (ftlgroups g hg).2, ?_⟩,
    ⟨?_, rflag, fun g hg => (rgroups g hg).2, ?_⟩⟩
  · exact Multiset.coe_eq_coe.1 ecjoin
  · intro h
    subst h
    simp [EachChoiceHOMStrategy.generate, each_choice_generate_aux]
  · exact Multiset.coe_eq_coe.1 ftljoin
  · intro h
    subst h
    simp [FirstToLastHOMStrategy.generate, ftl_generate_aux]
  · exact (Multiset.coe_eq_coe.1 rjoin).trans hshuf
  · intro h
    subst h
    have hse : shuffler [] = [] := List.Perm.eq_nil hshuf
    rw [RandomHOMStrategy.generate, hse]
    simp [each_choice_generate_aux]

/-- C3, witness: the three strategies at order 2 on a concrete
three-mutation list, with the identity shuffler. -/
theorem claim_C3_witness :
    (EachChoiceHOMStrategy.generate (fun _ => ([] : List Nat)) 2
      [(⟨1, 1⟩ : Mutation Nat Nat), ⟨2, 2⟩, ⟨3, 3⟩]).1.flatten.Perm
      [(⟨1, 1⟩ : Mutation Nat Nat), ⟨2, 2⟩, ⟨3, 3⟩] ∧
    (FirstToLastHOMStrategy.generate (fun _ => ([] : List Nat)) 2
      [(⟨1, 1⟩ : Mutation Nat Nat), ⟨2, 2⟩, ⟨3, 3⟩]).1.flatten.Perm
      [(⟨1, 1⟩ : Mutation Nat Nat), ⟨2, 2⟩, ⟨3, 3⟩] :=
  ⟨(claim_C3 (fun _ => ([] : List Nat)) 2 (by decide) id
      [(⟨1, 1⟩ : Mutation Nat Nat), ⟨2, 2⟩, ⟨3, 3⟩] (List.Perm.refl _)).1.1,
    (claim_C3 (fun _ => ([] : List Nat)) 2 (by decide) id
      [(⟨1, 1⟩ : Mutation Nat Nat), ⟨2, 2⟩, ⟨3, 3⟩] (List.Perm.refl _)).2.1.1⟩

/-- C5: for a positive order and a duplicate-free input list (mutpy
compares Mutation objects by identity, so the working lists never hold
two equal entries), the BetweenOperators strategy terminates, every
input mutation appears in at least one yielded group, and no group holds
two mutations with the same operator; groups are non-empty of size at
most the order; the selection discipline itself — stable sort of the
candidates by usage count, then popping the least-used front — is the
definition of the embedded loop. -/
theorem claim_C5 (children : ν → List ν) (order : Nat) (ho : 1 ≤ order)
    (mutations : List (Mutation ν ω)) (hnd : mutations.Nodup) :
    (BetweenOperatorsHOMStrategy.generate children order mutations).2 = false ∧
    (∀ m ∈ mutations,
      ∃ g ∈ (BetweenOperatorsHOMStrategy.generate children order mutations).1, m ∈ g) ∧
    ∀ g ∈ (BetweenOperatorsHOMStrategy.generate children order mutations).1,
      g ≠ [] ∧ g.length ≤ order ∧ g.Pairwise (fun x y => x.op ≠ y.op) := by
  obtain ⟨hflag, hcov, hgroups⟩ := bo_generate_aux_spec children order ho mutations
    (fun _ => 0) mutations hnd (by simp)
  have hpair := bo_generate_aux_pairwise children (fun x y => x.op ≠ y.op)
    (fun a m h => badMutation_false_op_ne children a m h) order mutations
    (fun _ => 0) mutations
  exact ⟨hflag, hcov, fun g hg =>
    ⟨(hgroups g hg).1, (hgroups g hg).2, hpair g hg⟩⟩

/-- C5, witness: BetweenOperators at order 2 on two same-operator
mutations: it terminates, covers both, and never pairs them. -/
theorem claim_C5_witness :
    (BetweenOperatorsHOMStrategy.generate (fun _ => ([] : List Nat)) 2
      [(⟨1, 7⟩ : Mutation Nat Nat), ⟨2, 7⟩]).2 = false ∧
    ∀ g ∈ (BetweenOperatorsHOMStrategy.generate (fun _ => ([] : List Nat)) 2
      [(⟨1, 7⟩ : Mutation Nat Nat), ⟨2, 7⟩]).1,
      g ≠ [] ∧ g.length ≤ 2 ∧ g.Pairwise (fun x y => x.op ≠ y.op) :=
  ⟨(claim_C5 (fun _ => ([] : List Nat)) 2 (by decide)
      [(⟨1, 7⟩ : Mutation Nat Nat), ⟨2, 7⟩] (by decide)).1,
    (claim_C5 (fun _ => ([] : List Nat)) 2 (by decide)
      [(⟨1, 7⟩ : Mutation Nat Nat), ⟨2, 7⟩] (by decide)).2.2⟩

/-- C9: with a positive order (and, for BetweenOperators, the
duplicate-free working list that object identity guarantees in the
source), every yielded group of the four strategies is non-empty, and
every outer iteration strictly shrinks the remaining work, which the
flag being false records. -/
theorem claim_C9 (children : ν → List ν) (order : Nat) (ho : 1 ≤ order)
    (shuffler : List (Mutation ν ω) → List (Mutation ν ω))
    (mutations : List (Mutation ν ω)) (hnd : mutations.Nodup) :
    (∀ g ∈ (EachChoiceHOMStrategy.generate children order mutations).1, g ≠ []) ∧
    (EachChoiceHOMStrategy.generate children order mutations).2 = false ∧
    (∀ g ∈ (FirstToLastHOMStrategy.generate children order mutations).1, g ≠ []) ∧
    (FirstToLastHOMStrategy.generate children order mutations).2 = false ∧
    (∀ g ∈ (RandomHOMStrategy.generate children order shuffler mutations).1, g ≠ []) ∧
    (RandomHOMStrategy.generate children order shuffler mutations).2 = false ∧
    (∀ g ∈ (BetweenOperatorsHOMStrategy.generate children order mutations).1, g ≠ []) ∧
    (BetweenOperatorsHOMStrategy.generate children order mutations).2 = false := by
  obtain ⟨ecflag, _, ecgroups⟩ := each_choice_generate_aux_spec children order ho mutations
  obtain ⟨ftlflag, _, ftlgroups⟩ := ftl_generate_aux_spec children order ho mutations
  obtain ⟨rflag, _, rgroups⟩ :=
    each_choice_generate_aux_spec children order ho (shuffler mutations)
  obtain ⟨boflag, _, _⟩ := bo_generate_aux_spec children order ho mutations
    (fun _ => 0) mutations hnd (by simp)
  refine ⟨fun g hg => (ecgroups g hg).1, ecflag,
    fun g hg => (ftlgroups g hg).1, ftlflag,
    fun g hg => (rgroups g hg).1, rflag,
    ?_, boflag⟩
  exact bo_generate_aux_nonempty children order ho mutations (fun _ => 0) mutations
    (fun x hx => hx)

/-- C9, witness: the four strategies at order 2 on a concrete list. -/
theorem claim_C9_witness :
    (∀ g ∈ (EachChoiceHOMStrategy.generate (fun _ => ([] : List Nat)) 2
      [(⟨1, 1⟩ : Mutation Nat Nat), ⟨2, 2⟩]).1, g ≠ []) ∧
    (BetweenOperatorsHOMStrategy.generate (fun _ => ([] : List Nat)) 2
      [(⟨1, 1⟩ : Mutation Nat Nat), ⟨2, 2⟩]).2 = false :=
  ⟨(claim_C9 (fun _ => ([] : List Nat)) 2 (by decide) id
      [(⟨1, 1⟩ : Mutation Nat Nat), ⟨2, 2⟩] (by decide)).1,
    (claim_C9 (fun _ => ([] : List Nat)) 2 (by decide) id
      [(⟨1, 1⟩ : Mutation Nat Nat), ⟨2, 2⟩] (by decide)).2.2.2.2.2.2.2⟩

/-- C4: remove_bad_mutations keeps exactly those available candidates
that conflict with no chosen mutation — a candidate conflicts when it
targets the same node as a chosen mutation, when either node is among
the other's descendants, or, with same operators disallowed, when it
shares a chosen mutation's operator — and consequently no group yielded
by any of the four strategies contains two mutations on the same node or
on an ancestor/descendant node pair. -/
theorem claim_C4 (children : ν → List ν) (to_apply avail : List (Mutation ν ω))
    (allow : Bool) (order : Nat)
    (shuffler : List (Mutation ν ω) → List (Mutation ν ω))
    (mutations : List (Mutation ν ω)) :
    (remove_bad_mutations children to_apply avail allow =
      avail.filter (fun m => to_apply.all (fun a => !badMutation children allow a m))) ∧
    (∀ m : Mutation ν ω, m ∈ remove_bad_mutations children to_apply avail allow ↔
      m ∈ avail ∧ ∀ a ∈ to_apply,
        ¬(a.node = m.node ∨ a.node ∈ children m.node ∨ m.node ∈ children a.node ∨
          (allow = false ∧ a.op = m.op))) ∧
    (∀ g ∈ (EachChoiceHOMStrategy.generate children order mutations).1,
      g.Pairwise (fun x y =>
        ¬(x.node = y.node ∨ x.node ∈ children y.node ∨ y.node ∈ children x.node))) ∧
    (∀ g ∈ (FirstToLastHOMStrategy.generate children order mutations).1,
      g.Pairwise (fun x y =>
        ¬(x.node = y.node ∨ x.node ∈ children y.node ∨ y.node ∈ children x.node))) ∧
    (∀ g ∈ (RandomHOMStrategy.generate children order shuffler mutations).1,
      g.Pairwise (fun x y =>
        ¬(x.node = y.node ∨ x.node ∈ children y.node ∨ y.node ∈ children x.node))) ∧
    (∀ g ∈ (BetweenOperatorsHOMStrategy.generate children order mutations).1,
      g.Pairwise (fun x y =>
        ¬(x.node = y.node ∨ x.node ∈ children y.node ∨ y.node ∈ children x.node))) := by
  refine ⟨remove_bad_mutations_eq_filter children to_apply avail allow, ?_, ?_, ?_, ?_, ?_⟩
  · intro m
    rw [remove_bad_mutations_eq_filter, List.mem_filter, List.all_eq_true]
    constructor
    · rintro ⟨h1, h2⟩
      refine ⟨h1, fun a ha => ?_⟩
      have hb := h2 a ha
      rw [Bool.not_eq_eq_eq_not, Bool.not_true] at hb
      exact (badMutation_eq_false_iff children allow a m).1 hb
    · rintro ⟨h1, h2⟩
      refine ⟨h1, fun a ha => ?_⟩
      rw [Bool.not_eq_eq_eq_not, Bool.not_true]
      exact (badMutation_eq_false_iff children allow a m).2 (h2 a ha)
  · exact each_choice_generate_aux_pairwise children _
      (fun a m h => badMutation_false_no_node_conflict children true a m h) order mutations
  · exact ftl_generate_aux_pairwise children _
      (fun a m h => badMutation_false_no_node_conflict children true a m h) order mutations
  · exact each_choice_generate_aux_pairwise children _
      (fun a m h => badMutation_false_no_node_conflict children true a m h) order
      (shuffler mutations)
  · exact bo_generate_aux_pairwise children _
      (fun a m h => badMutation_false_no_node_conflict children false a m h) order
      mutations (fun _ => 0) mutations

end ClaimStrategies

/-- C6: the deadline handed to the isolated subprocess is
timeout_factor * max(1, total baseline duration), terminate() is always
invoked on the child, and when no result arrives before the deadline the
mutant is classified Timeout: the timeout counter is incremented and a
timeout notification is produced. -/
theorem claim_C6 (timeout_factor total_duration : ℚ)
    (get_result : ℚ → Option MutantResult) (score : MutationScore) :
    (run_mutation_subprocess timeout_factor total_duration get_result).deadline =
      timeout_factor * max 1 total_duration ∧
    (run_mutation_subprocess timeout_factor total_duration get_result).terminate_called =
      true ∧
    ((run_mutation_subprocess timeout_factor total_duration get_result).result = none →
      update_score_and_notify_views score
        (run_mutation_subprocess timeout_factor total_duration get_result).result =
        (score.inc_timeout, MutantOutcome.timeout) ∧
      (update_score_and_notify_views score
        (run_mutation_subprocess timeout_factor total_duration get_result).result).1.timeout_mutants =
        score.timeout_mutants + 1) := by
  refine ⟨?_, rfl, ?_⟩
  · show live_time timeout_factor total_duration = timeout_factor * max 1 total_duration
    rcases le_or_lt total_duration 1 with h | h
    · rw [live_time, if_neg (not_lt.2 h), max_eq_left h]
    · rw [live_time, if_pos h, max_eq_right h.le]
  · intro hres
    rw [hres]
    exact ⟨rfl, rfl⟩

/-- C6, witness: the spec's own scenario, a 2-second baseline with
timeout factor 5 gives a 10-second deadline, and an expiring child is
classified Timeout. -/
theorem claim_C6_witness :
    (run_mutation_subprocess 5 2 (fun _ => none)).deadline = 10 ∧
      update_score_and_notify_views MutationScore.init
        (run_mutation_subprocess 5 2 (fun _ => none)).result =
        (MutationScore.init.inc_timeout, MutantOutcome.timeout) := by
  have h := claim_C6 5 2 (fun _ => none) MutationScore.init
  refine ⟨?_, (h.2.2 rfl).1⟩
  rw [h.1]
  norm_num

/-- C7, counterexample: the claim asserts that the rebinding of test
modules back to the original target runs even when processing a mutant
raises an unexpected exception; in the code repair_tests_modules is the
statement after the for-loop with no try/finally, so a raising mutant
makes the exception escape and the repair action never happens. -/
theorem claim_C7_counterexample :
    (mutate_module_actions 0 [some ()]).2 = some () ∧
      ControllerAction.repair ∉ (mutate_module_actions 0 [some ()]).1 := by
  constructor
  · rfl
  · simp [mutate_module_actions]

/-- C7 (amended): when the mutant stream is exhausted without an
unexpected exception, mutate_module executes the repair exactly once, as
its final action, and no exception escapes; when some mutant raises, the
exception propagates out of mutate_module and the repair is skipped. -/
theorem claim_C7 {ε : Type} (steps : List (Option ε)) :
    ((∀ x ∈ steps, x = none) →
      (mutate_module_actions 0 steps).1.countP
          (fun a => match a with | ControllerAction.repair => true | _ => false) = 1 ∧
      (mutate_module_actions 0 steps).1.getLast? = some ControllerAction.repair ∧
      (mutate_module_actions 0 steps).2 = none) ∧
    (∀ e : ε, (mutate_module_actions 0 steps).2 = some e →
      ControllerAction.repair ∉ (mutate_module_actions 0 steps).1) :=
  ⟨fun hall => mutate_module_actions_clean steps 0 hall,
    fun e he => mutate_module_actions_raised steps 0 e he⟩

/-- C7, witness: a two-mutant stream with no exception repairs exactly
once, at the end. -/
theorem claim_C7_witness :
    (mutate_module_actions 0 ([none, none] : List (Option Unit))).1.countP
        (fun a => match a with | ControllerAction.repair => true | _ => false) = 1 ∧
      (mutate_module_actions 0 ([none, none] : List (Option Unit))).1.getLast? =
        some ControllerAction.repair ∧
      (mutate_module_actions 0 ([none, none] : List (Option Unit))).2 = none :=
  (claim_C7 ([none, none] : List (Option Unit))).1 (by simp)

/-- C8: with a configured mutation_number n of at least 1, the mutant
loop from a fresh score gives the i-th generated mutant ordinal i, skips
every mutant with ordinal other than n as incompetent — without
notification, construction or test execution — and processes the mutant
with ordinal n normally; hence at most one mutant is executed,
all_mutants ends at the stream length, and at least all but one of the
mutants are recorded incompetent. -/
theorem claim_C8 (n : Nat) (hn : 1 ≤ n) (runs : List MutantRun) :
    (mutate_module_loop (some n) MutationScore.init runs).2 =
      (runs.enumFrom 1).map (fun p =>
        if p.1 = n then MutEvent.processed p.1 p.2 else MutEvent.skipped p.1) ∧
    (mutate_module_loop (some n) MutationScore.init runs).1.all_mutants = runs.length ∧
    executed_mutants (mutate_module_loop (some n) MutationScore.init runs).1 ≤ 1 ∧
    runs.length - 1 ≤
      (mutate_module_loop (some n) MutationScore.init runs).1.incompetent_mutants := by
  have hn0 : n ≠ 0 := by omega
  have hev := mutate_module_loop_events (some n) runs MutationScore.init
  have hinit : MutationScore.init.all_mutants = 0 := rfl
  rw [hinit, Nat.zero_add] at hev
  have hall := mutate_module_loop_all_mutants (some n) runs MutationScore.init
  rw [hinit, Nat.zero_add] at hall
  have hexec := mutate_module_loop_executed_le n hn0 runs MutationScore.init
  have hexec0 : executed_mutants MutationScore.init = 0 := rfl
  rw [hexec0, Nat.zero_add] at hexec
  refine ⟨?_, hall, hexec, ?_⟩
  · rw [hev]
    apply List.map_congr_left
    intro p hp
    by_cases hpn : p.1 = n
    · rw [if_pos hpn, if_neg]
      simp only [Option.getD_some]
      push_neg
      intro _
      omega
    · rw [if_neg hpn, if_pos]
      simp only [Option.getD_some]
      exact ⟨hn0, fun h => hpn h.symm⟩
  · have h1 := hall
    have h2 := hexec
    simp only [MutationScore.all_mutants] at h1
    simp only [executed_mutants] at h2
    omega

/-- C8, witness: requesting ordinal 2 of a two-mutant stream skips the
first mutant and processes the second. -/
theorem claim_C8_witness :
    (mutate_module_loop (some 2) MutationScore.init
        [⟨true, none⟩, ⟨true, some ⟨false, false⟩⟩]).2 =
      [MutEvent.skipped 1, MutEvent.processed 2 ⟨true, some ⟨false, false⟩⟩] := by
  rw [(claim_C8 2 (by decide) [⟨true, none⟩, ⟨true, some ⟨false, false⟩⟩]).1]
  rfl

end MutPy
